import Mathlib

/-! # A keyed tree store and its connection control

A shallow embedding of `db.c` (the binary search tree behind `db_query`, `db_add`
and `db_remove`) and of the client bookkeeping of `server.c` (`delete_all`, the
stop/go gate), followed by theorems about them.

Modelling conventions.

* A C string is the list of its bytes before the terminating NUL (`CStr`).
* The heap of `node_t` records reachable from `head` is tree shaped, so a node is an
  inductive value and a pointer into the tree is the path of child links that leads to
  it from `head` (`ptr`).  `deref` reads through a pointer, `assign` stores through one.
* `malloc` and the pthread primitives are taken to succeed; locks do not change the
  values computed by a single sequential call and are left out of these definitions.
-/

namespace DB

/-! ## Strings -/

/-- The bytes of a NUL-terminated C string, terminator excluded. -/
abbrev CStr := List Nat

/-- The constant `#define MAXLEN 256`. -/
def MAXLEN : Nat := 256

/-- The libc function `strlen`. -/
def strlen (s : CStr) : Nat := s.length

/-- The libc function `strcmp`, as far as the C standard fixes it: the sign of the
byte-wise lexicographic comparison. -/
def strcmp : CStr → CStr → Int
  | [], [] => 0
  | [], _ :: _ => -1
  | _ :: _, [] => 1
  | a :: as, b :: bs => if a < b then -1 else if b < a then 1 else strcmp as bs

/-- The call `snprintf(buf, n, "%s", s)`: at most `n - 1` bytes of `s` are written (and a
NUL), and nothing at all when `n = 0`.  The result is the new content of `buf`. -/
def snprintf (buf : CStr) (n : Nat) (s : CStr) : CStr :=
  if n = 0 then buf else s.take (n - 1)

/-- The string literal `"not found"`. -/
def not_found : CStr := [110, 111, 116, 32, 102, 111, 117, 110, 100]

/-! ## Nodes and pointers -/

/-- A `node_t *`: either `NULL` or a record with `name`, `value`, `lchild`, `rchild`
(the lock field carries no data). -/
inductive node_t where
  | null : node_t
  | node (name value : CStr) (lchild rchild : node_t) : node_t
  deriving DecidableEq

/-- Field `name`; reading it through `NULL` does not happen in the code. -/
def node_t.name : node_t → CStr
  | .null => []
  | .node n _ _ _ => n

/-- Field `value`. -/
def node_t.value : node_t → CStr
  | .null => []
  | .node _ v _ _ => v

/-- Field `lchild`. -/
def node_t.lchild : node_t → node_t
  | .null => .null
  | .node _ _ l _ => l

/-- Field `rchild`. -/
def node_t.rchild : node_t → node_t
  | .null => .null
  | .node _ _ _ r => r

/-- Which child link of a node a pointer follows. -/
inductive link where
  | l : link
  | r : link
  deriving DecidableEq

/-- A pointer to a node (equivalently, to the child slot holding it): the links to follow
from the root of the tree it points into. -/
abbrev ptr := List link

/-- Reading through a pointer: the node found at the end of the path. -/
def deref : node_t → ptr → node_t
  | t, [] => t
  | .null, _ :: _ => .null
  | .node _ _ lc _, .l :: p => deref lc p
  | .node _ _ _ rc, .r :: p => deref rc p

/-- The assignment `*slot = x` for the child slot addressed by a pointer. -/
def assign : node_t → ptr → node_t → node_t
  | _, [], x => x
  | .null, _ :: _, _ => .null
  | .node n v lc rc, .l :: p, x => .node n v (assign lc p x) rc
  | .node n v lc rc, .r :: p, x => .node n v lc (assign rc p x)

/-- The assignments `p->name = n; p->value = v` for the node a pointer addresses. -/
def set_strings : node_t → ptr → CStr → CStr → node_t
  | .null, _, _, _ => .null
  | .node _ _ lc rc, [], n, v => .node n v lc rc
  | .node n0 v0 lc rc, .l :: p, n, v => .node n0 v0 (set_strings lc p n v) rc
  | .node n0 v0 lc rc, .r :: p, n, v => .node n0 v0 lc (set_strings rc p n v)

/-- The initial value of the global `head`: `{"", "", 0, 0, &root_lock}`. -/
def head0 : node_t := .node [] [] .null .null

/-! ## The operations of `db.c` -/

/-- The function `node_constructor`: `NULL` when a string is longer than `MAXLEN`, else a
fresh node whose strings are written by `snprintf(..., MAXLEN, "%s", ...)`. -/
def node_constructor (arg_name arg_value : CStr) (arg_left arg_right : node_t) : node_t :=
  let name_len := strlen arg_name
  let val_len := strlen arg_value
  if name_len > MAXLEN ∨ val_len > MAXLEN then .null
  else .node (snprintf [] MAXLEN arg_name) (snprintf [] MAXLEN arg_value) arg_left arg_right

/-- The function `search(name, parent, parentpp, lt)`, started at the node `parent` given
as the tree below it.  The first component is `result` (a pointer to the target, or
`none` for `NULL`), the second is the value stored in `*parentpp`; both are paths from
the node the search started at. -/
def search (name : CStr) : node_t → Option ptr × ptr
  | .null => (none, [])
  | .node pname _ lchild rchild =>
    if strcmp name pname < 0 then
      match lchild with
      | .null => (none, [])
      | .node nname _ _ _ =>
        if strcmp name nname = 0 then (some [.l], [])
        else ((search name lchild).1.map (fun p => .l :: p), .l :: (search name lchild).2)
    else
      match rchild with
      | .null => (none, [])
      | .node nname _ _ _ =>
        if strcmp name nname = 0 then (some [.r], [])
        else ((search name rchild).1.map (fun p => .r :: p), .r :: (search name rchild).2)

/-- The function `db_query(name, result, len)`: the new content of `result`, for a `len`
that is not negative. -/
def db_query (head : node_t) (name : CStr) (result : CStr) (len : Nat) : CStr :=
  match (search name head).1 with
  | none => snprintf result len not_found
  | some target => snprintf result len (deref head target).value

/-- The function `db_add(name, value)`: the new tree and the returned `int`. -/
def db_add (head : node_t) (name value : CStr) : node_t × Int :=
  match search name head with
  | (some _, _) => (head, 0)
  | (none, parent) =>
    let newnode := node_constructor name value .null .null
    if strcmp name (deref head parent).name < 0 then
      (assign head (parent ++ [.l]) newnode, 1)
    else
      (assign head (parent ++ [.r]) newnode, 1)

/-- The loop `while (next->lchild != 0) next = next->lchild` of `db_remove`: the path from
its starting node to the node it stops at. -/
def leftmost : node_t → ptr
  | .null => []
  | .node _ _ lchild _ =>
    match lchild with
    | .null => []
    | .node _ _ _ _ => .l :: leftmost lchild

/-- The function `db_remove(name)`: the new tree and the returned `int`. -/
def db_remove (head : node_t) (name : CStr) : node_t × Int :=
  match search name head with
  | (none, _) => (head, 0)
  | (some d, parent) =>
    let dnode := deref head d
    let par := deref head parent
    if dnode.rchild = .null then
      if strcmp dnode.name par.name < 0 then
        (assign head (parent ++ [.l]) dnode.lchild, 1)
      else
        (assign head (parent ++ [.r]) dnode.lchild, 1)
    else if dnode.lchild = .null then
      if strcmp dnode.name par.name < 0 then
        (assign head (parent ++ [.l]) dnode.rchild, 1)
      else
        (assign head (parent ++ [.r]) dnode.rchild, 1)
    else
      let pnext := d ++ .r :: leftmost dnode.rchild
      let next := deref head pnext
      let renamed := set_strings head d (snprintf dnode.name MAXLEN next.name)
        (snprintf dnode.value MAXLEN next.value)
      (assign renamed pnext next.rchild, 1)

/-! ## Vocabulary for stating properties of the tree -/

/-- In-order traversal of a subtree: its `(name, value)` pairs, left to right. -/
def entries : node_t → List (CStr × CStr)
  | .null => []
  | .node n v lc rc => entries lc ++ (n, v) :: entries rc

/-- The names met by the in-order traversal. -/
def names (t : node_t) : List CStr := (entries t).map Prod.fst

/-- Binary search tree under `strcmp`: at every node, every name of the left subtree is
strictly smaller and every name of the right subtree strictly greater. -/
def bst : node_t → Prop
  | .null => True
  | .node n _ lc rc =>
    bst lc ∧ bst rc ∧ (∀ k ∈ names lc, strcmp k n < 0) ∧ (∀ k ∈ names rc, strcmp n k < 0)

/-- Every string of the subtree is short enough to have been written whole by
`snprintf(..., MAXLEN, ...)`, the only way the code ever writes one. -/
def fits : node_t → Prop
  | .null => True
  | .node n v lc rc => strlen n < MAXLEN ∧ strlen v < MAXLEN ∧ fits lc ∧ fits rc

/-- The real nodes of a store, in order: everything below the sentinel `head`. -/
def contents (head : node_t) : List (CStr × CStr) :=
  entries head.lchild ++ entries head.rchild

/-- The names of the real nodes of a store. -/
def keys (head : node_t) : List CStr := (contents head).map Prod.fst

/-- A BST-ordered store: `head` is the sentinel (a node with the empty name and no left
child, since no name compares below the empty name) and the real nodes, all in its right
subtree, form a binary search tree. -/
def ordered_store (head : node_t) : Prop :=
  head ≠ .null ∧ head.name = [] ∧ head.lchild = .null ∧ bst head.rchild

/-- The child of `parent` that `search` looks at for `name`. -/
def side (name : CStr) (parent : node_t) : node_t :=
  if strcmp name parent.name < 0 then parent.lchild else parent.rchild

/-- The node `parent` with the child on the side of `name` replaced. -/
def with_side (name : CStr) (parent : node_t) (c : node_t) : node_t :=
  match parent with
  | .null => .null
  | .node n v lc rc => if strcmp name n < 0 then .node n v c rc else .node n v lc c

/-- Value stored under `name` in a subtree, found by the ordered descent. -/
def lookup (name : CStr) : node_t → Option CStr
  | .null => none
  | .node n v lc rc =>
    if strcmp name n = 0 then some v
    else if strcmp name n < 0 then lookup name lc else lookup name rc

/-- Subtree after the ordered descent for `name` has attached `newnode` at the null slot it
ends in (nothing changes when the descent meets `name`). -/
def graft (name : CStr) (newnode : node_t) : node_t → node_t
  | .null => newnode
  | .node n v lc rc =>
    if strcmp name n = 0 then .node n v lc rc
    else if strcmp name n < 0 then .node n v (graft name newnode lc) rc
    else .node n v lc (graft name newnode rc)

/-- What `db_remove` leaves in the slot of the node it deletes. -/
def unlink : node_t → node_t
  | .null => .null
  | .node n v lc rc =>
    if rc = .null then lc
    else if lc = .null then rc
    else
      let next := deref rc (leftmost rc)
      .node (snprintf n MAXLEN next.name) (snprintf v MAXLEN next.value) lc
        (assign rc (leftmost rc) next.rchild)

/-- Subtree after the ordered descent for `name` has unlinked the node it meets. -/
def prune (name : CStr) : node_t → node_t
  | .null => .null
  | .node n v lc rc =>
    if strcmp name n = 0 then unlink (.node n v lc rc)
    else if strcmp name n < 0 then .node n v (prune name lc) rc
    else .node n v lc (prune name rc)

/-! ## Sequences of calls, and the finite map they are compared with -/

/-- One call a client of the store can make. -/
inductive call where
  | add (name value : CStr) : call
  | remove (name : CStr) : call
  | query (name result : CStr) (len : Nat) : call

/-- What a call hands back: the `int` returned by `db_add` or `db_remove`, or the text
left in the result buffer by `db_query`. -/
inductive outcome where
  | code (r : Int) : outcome
  | text (s : CStr) : outcome
  deriving DecidableEq

/-- The effect of one call on the store, with what it hands back. -/
def db_call (head : node_t) : call → node_t × outcome
  | .add name value => ((db_add head name value).1, .code (db_add head name value).2)
  | .remove name => ((db_remove head name).1, .code (db_remove head name).2)
  | .query name result len => (head, .text (db_query head name result len))

/-- A sequence of calls run one after the other. -/
def db_run (head : node_t) : List call → node_t × List outcome
  | [] => (head, [])
  | c :: cs => ((db_run (db_call head c).1 cs).1, (db_call head c).2 :: (db_run (db_call head c).1 cs).2)

/-- A finite map from names to values. -/
abbrev fmap := CStr → Option CStr

/-- The empty finite map. -/
def fmap_empty : fmap := fun _ => none

/-- The specification of one call, in the words of the claim: insert-if-absent answers 1
iff the key was absent, delete answers 1 iff the key was present, and a query yields the
stored value or "not found". -/
def spec_call (m : fmap) : call → fmap × outcome
  | .add name value =>
    match m name with
    | none => (fun k => if k = name then some value else m k, .code 1)
    | some _ => (m, .code 0)
  | .remove name =>
    match m name with
    | none => (m, .code 0)
    | some _ => (fun k => if k = name then none else m k, .code 1)
  | .query name _ _ =>
    match m name with
    | none => (m, .text not_found)
    | some v => (m, .text v)

/-- The specification of a sequence of calls. -/
def spec_run (m : fmap) : List call → fmap × List outcome
  | [] => (m, [])
  | c :: cs =>
    ((spec_run (spec_call m c).1 cs).1, (spec_call m c).2 :: (spec_run (spec_call m c).1 cs).2)

/-- A call the command protocol can deliver: names and values of at most 255 bytes
(`sscanf` with `%255s`), answered into a buffer of at least `MAXLEN` bytes (`response[256]`). -/
def call_ok : call → Prop
  | .add name value => strlen name < MAXLEN ∧ strlen value < MAXLEN
  | .remove name => strlen name < MAXLEN
  | .query name _ len => strlen name < MAXLEN ∧ MAXLEN ≤ len

/-- The search-tree property can be checked by running through the tree. -/
instance bst_decidable : (t : node_t) → Decidable (bst t)
  | .null => isTrue trivial
  | .node n _ lc rc =>
    match bst_decidable lc, bst_decidable rc with
    | isFalse h, _ => isFalse (fun hb => h hb.1)
    | _, isFalse h => isFalse (fun hb => h hb.2.1)
    | isTrue h1, isTrue h2 =>
      if h3 : ∀ k ∈ names lc, strcmp k n < 0 then
        if h4 : ∀ k ∈ names rc, strcmp n k < 0 then isTrue ⟨h1, h2, h3, h4⟩
        else isFalse (fun hb => h4 hb.2.2.2)
      else isFalse (fun hb => h3 hb.2.2.1)

/-- Whether all strings fit can be checked by running through the tree. -/
instance fits_decidable : (t : node_t) → Decidable (fits t)
  | .null => isTrue trivial
  | .node n v lc rc =>
    match fits_decidable lc, fits_decidable rc with
    | isFalse h, _ => isFalse (fun hf => h hf.2.2.1)
    | _, isFalse h => isFalse (fun hf => h hf.2.2.2)
    | isTrue h3, isTrue h4 =>
      if h1 : strlen n < MAXLEN then
        if h2 : strlen v < MAXLEN then isTrue ⟨h1, h2, h3, h4⟩
        else isFalse (fun hf => h2 hf.2.1)
      else isFalse (fun hf => h1 hf.1)

/-- Whether a store is BST-ordered can be checked. -/
instance ordered_store_decidable (head : node_t) : Decidable (ordered_store head) := by
  unfold ordered_store
  exact inferInstance

/-- Whether a call is one the protocol can deliver can be checked. -/
instance call_ok_decidable : (c : call) → Decidable (call_ok c)
  | .add name value => inferInstanceAs (Decidable (strlen name < MAXLEN ∧ strlen value < MAXLEN))
  | .remove name => inferInstanceAs (Decidable (strlen name < MAXLEN))
  | .query name _ len => inferInstanceAs (Decidable (strlen name < MAXLEN ∧ MAXLEN ≤ len))

/-- The stores reachable from the empty store by `db_add` and `db_remove` calls whose
names and values have at most 255 bytes. -/
inductive reachable : node_t → Prop where
  | init : reachable head0
  | add {head : node_t} (name value : CStr) : reachable head → strlen name < MAXLEN →
      strlen value < MAXLEN → reachable (db_add head name value).1
  | remove {head : node_t} (name : CStr) : reachable head → strlen name < MAXLEN →
      reachable (db_remove head name).1

/-! ## Sample data: the scenarios of the specification -/

/-- The bytes of `"alice"`. -/
def alice : CStr := [97, 108, 105, 99, 101]

/-- The bytes of `"bob"`. -/
def bob : CStr := [98, 111, 98]

/-- The bytes of `"carol"`. -/
def carol : CStr := [99, 97, 114, 111, 108]

/-- The store after `db_add("alice", "30")`, `db_add("bob", "25")`, `db_add("carol", "40")`
on the empty store. -/
def store_abc : node_t :=
  (db_add (db_add (db_add head0 alice [51, 48]).1 bob [50, 53]).1 carol [52, 48]).1

/-- The store after `db_add` of `("m", "1")`, `("b", "2")`, `("t", "3")`, `("o", "4")` on the
empty store. -/
def store_mbto : node_t :=
  (db_add (db_add (db_add (db_add head0 [109] [49]).1 [98] [50]).1 [116] [51]).1 [111] [52]).1

/-! ## The command interpreter of `db.c` -/

/-- The libc function `isspace` in the C locale: space, `\t`, `\n`, `\v`, `\f`, `\r`. -/
def isspace (b : Nat) : Bool := b = 32 || (9 ≤ b && b ≤ 13)

/-- One conversion `%255s` of `sscanf`: white space is skipped, then up to 255 bytes that
are not white space are taken.  The result is the token and the input left after it, or
`none` when the input ends before any byte of a token. -/
def scan_s (input : CStr) : Option (CStr × CStr) :=
  let s := input.dropWhile isspace
  if s = [] then none
  else some ((s.takeWhile (fun b => !isspace b)).take 255,
    s.drop ((s.takeWhile (fun b => !isspace b)).take 255).length)

/-- The call `sscanf(input, "%255s", name)`: the returned count (`EOF` is -1) and the
content of `name` (left empty here when nothing is written to it). -/
def sscanf_1 (input : CStr) : Int × CStr :=
  match scan_s input with
  | none => (-1, [])
  | some (name, _) => (1, name)

/-- The call `sscanf(input, "%255s %255s", name, value)`: the returned count and the
contents of `name` and `value`. -/
def sscanf_2 (input : CStr) : Int × CStr × CStr :=
  match scan_s input with
  | none => (-1, [], [])
  | some (name, rest) =>
    match scan_s rest with
    | none => (1, name, [])
    | some (value, _) => (2, name, value)

/-- The string literal `"ill-formed command"`. -/
def ill_formed : CStr :=
  [105, 108, 108, 45, 102, 111, 114, 109, 101, 100, 32, 99, 111, 109, 109, 97, 110, 100]

/-- The string literal `"added"`. -/
def added : CStr := [97, 100, 100, 101, 100]

/-- The string literal `"already in database"`. -/
def already_in_database : CStr :=
  [97, 108, 114, 101, 97, 100, 121, 32, 105, 110, 32, 100, 97, 116, 97, 98, 97, 115, 101]

/-- The string literal `"removed"`. -/
def removed : CStr := [114, 101, 109, 111, 118, 101, 100]

/-- The string literal `"not in database"`. -/
def not_in_database : CStr :=
  [110, 111, 116, 32, 105, 110, 32, 100, 97, 116, 97, 98, 97, 115, 101]

/-- The string literal `"bad file name"`. -/
def bad_file_name : CStr := [98, 97, 100, 32, 102, 105, 108, 101, 32, 110, 97, 109, 101]

/-- The string literal `"file processed"`. -/
def file_processed : CStr :=
  [102, 105, 108, 101, 32, 112, 114, 111, 99, 101, 115, 115, 101, 100]

/-- The file system seen by `fopen(name, "r")` and `fgets`: the lines of each file that is
there to be read, one entry per call of `fgets`.  Whether `fopen` succeeds also depends on
the descriptors left to the process, which `interpret_command` counts. -/
abbrev files := CStr → Option (List CStr)

/-- The loop `while (fgets(ibuf, ...) != 0) interpret_command(ibuf, response, len)`: the
lines are interpreted in order, each on the store and the response left by the one
before. -/
def replay (interpret : node_t → CStr → CStr → node_t × CStr) :
    List CStr → node_t → CStr → node_t × CStr
  | [], head, response => (head, response)
  | ibuf :: rest, head, response =>
    replay interpret rest (interpret head ibuf response).1 (interpret head ibuf response).2

/-- The function `interpret_command(command, response, len)` on the store `head`: the new
store and the new content of `response`.  The first argument is the number of streams
`fopen` can still open: `fopen(name, "r")` returns `NULL` when the file is not there or
when no descriptor is left; a stream stays open while the lines of its file are replayed,
so the nested calls have one descriptor less, and `fclose` gives it back. -/
def interpret_command (fs : files) (len : Nat) :
    Nat → node_t → CStr → CStr → node_t × CStr
  | free, head, command, response =>
    if strlen command ≤ 1 then (head, snprintf response len ill_formed)
    else if command.headD 0 = 113 then
      if (sscanf_1 command.tail).1 < 1 then (head, snprintf response len ill_formed)
      else
        let answer := db_query head (sscanf_1 command.tail).2 response len
        if strlen answer = 0 then (head, snprintf answer len not_found)
        else (head, answer)
    else if command.headD 0 = 97 then
      if (sscanf_2 command.tail).1 < 2 then (head, snprintf response len ill_formed)
      else if (db_add head (sscanf_2 command.tail).2.1 (sscanf_2 command.tail).2.2).2 ≠ 0 then
        ((db_add head (sscanf_2 command.tail).2.1 (sscanf_2 command.tail).2.2).1,
          snprintf response len added)
      else
        ((db_add head (sscanf_2 command.tail).2.1 (sscanf_2 command.tail).2.2).1,
          snprintf response len already_in_database)
    else if command.headD 0 = 100 then
      if (sscanf_1 command.tail).1 < 1 then (head, snprintf response len ill_formed)
      else if (db_remove head (sscanf_1 command.tail).2).2 ≠ 0 then
        ((db_remove head (sscanf_1 command.tail).2).1, snprintf response len removed)
      else
        ((db_remove head (sscanf_1 command.tail).2).1,
          snprintf response len not_in_database)
    else if command.headD 0 = 102 then
      if (sscanf_1 command.tail).1 < 1 then (head, snprintf response len ill_formed)
      else
        match fs (sscanf_1 command.tail).2 with
        | none => (head, snprintf response len bad_file_name)
        | some lines =>
          match free with
          | 0 => (head, snprintf response len bad_file_name)
          | free2 + 1 =>
            ((replay (interpret_command fs len free2) lines head response).1,
              snprintf (replay (interpret_command fs len free2) lines head response).2 len
                file_processed)
    else (head, snprintf response len ill_formed)


/-- A non-empty token without white space, of at most 255 bytes. -/
def token (s : CStr) : Prop := s ≠ [] ∧ (∀ b ∈ s, isspace b = false) ∧ strlen s < MAXLEN

/-- Whether a string is a token can be checked. -/
instance token_decidable (s : CStr) : Decidable (token s) := by
  unfold token
  exact inferInstance

/-- White space only (possibly nothing). -/
def blank (s : CStr) : Prop := ∀ b ∈ s, isspace b = true

/-- Whether a string is blank can be checked. -/
instance blank_decidable (s : CStr) : Decidable (blank s) := by
  unfold blank
  exact inferInstance


/-- A command line of none of the forms `q<name>`, `a<name> <value>`, `d<name>`,
`f<filename>`: it has at most one character, or its first character is none of `q`, `a`,
`d`, `f`, or only white space follows the first character (the argument is missing), or it
starts with `a` and a single token follows (the value is missing). -/
def malformed (command : CStr) : Prop :=
  strlen command ≤ 1 ∨
    (command.headD 0 ≠ 113 ∧ command.headD 0 ≠ 97 ∧ command.headD 0 ≠ 100 ∧
      command.headD 0 ≠ 102) ∨
    blank command.tail ∨
    (command.headD 0 = 97 ∧
      ∃ w1 tok w2, command.tail = w1 ++ (tok ++ w2) ∧ blank w1 ∧ token tok ∧ blank w2)


/-- A file system with one file, `"y"`, holding the lines `a k v`, `zzz`, an empty line,
`a j w` and `d k`, each ended by a newline. -/
def files_sample : files := fun n =>
  if n = [121] then
    some [[97, 32, 107, 32, 118, 10], [122, 122, 122, 10], [10], [97, 32, 106, 32, 119, 10],
      [100, 32, 107, 10]]
  else none

/-- A file system with one file, `"x"`, whose only line is the command `fx`. -/
def files_loop : files := fun n => if n = [120] then some [[102, 120]] else none

/-- The store obtained by applying lines in order as commands, each to the store left by
the line before; `free` is the number of streams a line can still open. -/
def apply_lines (fs : files) (len free : Nat) (lines : List CStr) (head : node_t) : node_t :=
  lines.foldl (fun h line => (interpret_command fs len free h line []).1) head

/-- A store as the protocol leaves it: BST-ordered, every string within 255 bytes, every
value a token. -/
def token_store (head : node_t) : Prop :=
  ordered_store head ∧ fits head ∧ ∀ e ∈ contents head, token e.2

/-- The stores the server can hold: the empty store it starts with, and the store left by
a call of `interpret_command`, the only caller of `db_add` and `db_remove`, whatever the
command line, the buffer and the files. -/
inductive served : node_t → Prop where
  | init : served head0
  | command {head : node_t} (fs : files) (len free : Nat) (command response : CStr) :
      served head → served (interpret_command fs len free head command response).1

/-- The store left by the command lines `aalice 30`, `abob 25` and `acarol 40`. -/
def store_served : node_t :=
  (interpret_command (fun _ => none) 256 0
    (interpret_command (fun _ => none) 256 0
      (interpret_command (fun _ => none) 256 0 head0
        (97 :: (alice ++ 32 :: [51, 48])) []).1
      (97 :: (bob ++ 32 :: [50, 53])) []).1
    (97 :: (carol ++ 32 :: [52, 48])) []).1

/-! ## Lock traces of the store operations

An operation is unfolded into the sequence of its accesses to the nodes of the tree: lock
and unlock of a node's `lock`, reads and writes of the fields `name`, `value`, `lchild`,
`rchild`.  A node is named by its pointer in the tree the operation starts on.  The node
made by `node_constructor` is private until it is linked in, and the frees of
`node_destructor` happen on a node already unlinked: the first leaves no event, the
second the single event `destroy`. -/

/-- The type `locktype_t`: `l_read` or `l_write`. -/
inductive locktype_t where
  | l_read : locktype_t
  | l_write : locktype_t
  deriving DecidableEq

/-- The data fields of a `node_t`. -/
inductive field_t where
  | name : field_t
  | value : field_t
  | lchild : field_t
  | rchild : field_t
  deriving DecidableEq

/-- One access of an operation to a node of the tree. -/
inductive access where
  | lock (lt : locktype_t) (p : ptr) : access
  | unlock (p : ptr) : access
  | read (p : ptr) (f : field_t) : access
  | write (p : ptr) (f : field_t) : access
  | destroy (p : ptr) : access
  deriving DecidableEq

/-- The accesses of `search(name, parent, parentpp, lt)`, for the node `parent` at pointer
`pp`; `keep` says that `parentpp` is not `NULL`, so that the lock of the last parent is
kept. -/
def search_trace (name : CStr) (lt : locktype_t) (keep : Bool) : node_t → ptr → List access
  | .null, _ => []
  | .node pname _ lchild rchild, pp =>
    if strcmp name pname < 0 then
      match lchild with
      | .null =>
        [.read pp .name, .read pp .lchild] ++ (if keep then [] else [.unlock pp])
      | .node nname _ _ _ =>
        if strcmp name nname = 0 then
          [.read pp .name, .read pp .lchild, .lock lt (pp ++ [.l]), .read (pp ++ [.l]) .name] ++
            (if keep then [] else [.unlock pp])
        else
          [.read pp .name, .read pp .lchild, .lock lt (pp ++ [.l]), .read (pp ++ [.l]) .name,
            .unlock pp] ++ search_trace name lt keep lchild (pp ++ [.l])
    else
      match rchild with
      | .null =>
        [.read pp .name, .read pp .rchild] ++ (if keep then [] else [.unlock pp])
      | .node nname _ _ _ =>
        if strcmp name nname = 0 then
          [.read pp .name, .read pp .rchild, .lock lt (pp ++ [.r]), .read (pp ++ [.r]) .name] ++
            (if keep then [] else [.unlock pp])
        else
          [.read pp .name, .read pp .rchild, .lock lt (pp ++ [.r]), .read (pp ++ [.r]) .name,
            .unlock pp] ++ search_trace name lt keep rchild (pp ++ [.r])

/-- The accesses of `db_query(name, result, len)`. -/
def db_query_trace (head : node_t) (name : CStr) : List access :=
  [.lock .l_read []] ++ search_trace name .l_read false head [] ++
    match (search name head).1 with
    | none => []
    | some target => [.read target .value, .unlock target]

/-- The accesses of `db_add(name, value)`. -/
def db_add_trace (head : node_t) (name : CStr) : List access :=
  [.lock .l_write []] ++ search_trace name .l_write true head [] ++
    match search name head with
    | (some target, parent) => [.unlock target, .unlock parent]
    | (none, parent) =>
      [.read parent .name,
        .write parent (if strcmp name (deref head parent).name < 0 then .lchild else .rchild),
        .unlock parent]

/-- The accesses of `node_destructor(node)`: the unlock, then the destruction of the lock
and the frees. -/
def node_destructor_trace (node : ptr) : List access := [.unlock node, .destroy node]

/-- The accesses of the loop `while (next->lchild != 0)` of `db_remove`, entered with
`next` at pointer `pn` and its lock held. -/
def walk_trace : node_t → ptr → List access
  | .null, _ => []
  | .node _ _ lchild _, pn =>
    match lchild with
    | .null => [.read pn .lchild]
    | .node _ _ _ _ =>
      [.read pn .lchild, .read pn .lchild, .lock .l_write (pn ++ [.l]), .unlock pn] ++
        walk_trace lchild (pn ++ [.l])

/-- The accesses of `db_remove(name)`. -/
def db_remove_trace (head : node_t) (name : CStr) : List access :=
  [.lock .l_write []] ++ search_trace name .l_write true head [] ++
    match search name head with
    | (none, parent) => [.unlock parent]
    | (some d, parent) =>
      let dnode := deref head d
      let par := deref head parent
      if dnode.rchild = .null then
        [.read d .rchild, .read d .name, .read parent .name, .read d .lchild,
          .write parent (if strcmp dnode.name par.name < 0 then .lchild else .rchild),
          .unlock parent] ++ node_destructor_trace d
      else if dnode.lchild = .null then
        [.read d .rchild, .read d .lchild, .read d .name, .read parent .name, .read d .rchild,
          .write parent (if strcmp dnode.name par.name < 0 then .lchild else .rchild),
          .unlock parent] ++ node_destructor_trace d
      else
        let sp := leftmost dnode.rchild
        let next := d ++ .r :: sp
        [.read d .rchild, .read d .lchild, .read d .rchild, .lock .l_write (d ++ [.r])] ++
          walk_trace dnode.rchild (d ++ [.r]) ++
          [.read d .name, .read next .name, .write d .name,
            .read d .value, .read next .value, .write d .value,
            .read next .name, .write d .name, .read next .value, .write d .value,
            .read next .rchild,
            (if sp = [] then .write d .rchild else .write (d ++ .r :: sp.dropLast) .lchild)] ++
          node_destructor_trace next ++ [.unlock d, .unlock parent]

/-- The accesses of `db_print_recurs(node, lvl, out)` for the node at pointer `p`; the
sentinel, at the empty pointer, prints `(root)` instead of its strings. -/
def db_print_recurs_trace : node_t → ptr → List access
  | .null, _ => []
  | .node _ _ left right, p =>
    (if p = [] then [] else [.read p .name, .read p .value]) ++
      [.read p .lchild, .read p .rchild] ++
      (if left = .null then [] else [.lock .l_read (p ++ [.l])]) ++
      (if right = .null then [] else [.lock .l_read (p ++ [.r])]) ++
      db_print_recurs_trace left (p ++ [.l]) ++ db_print_recurs_trace right (p ++ [.r]) ++
      [.unlock p]

/-- The function `db_print(filename)`: the returned `int` and the accesses.  `filename` is
`none` for `NULL`; `fopen_ok` says which files `fopen(filename, "w+")` can open. -/
def db_print_trace (head : node_t) (filename : Option CStr) (fopen_ok : CStr → Bool) :
    Int × List access :=
  match filename with
  | none => (0, [.lock .l_read []] ++ db_print_recurs_trace head [])
  | some f =>
    if f.dropWhile isspace = [] then (0, [.lock .l_read []] ++ db_print_recurs_trace head [])
    else if fopen_ok (f.dropWhile isspace) = false then (-1, [.lock .l_read []])
    else (0, [.lock .l_read []] ++ db_print_recurs_trace head [])

/-- The accesses of `db_cleanup_recurs(node)` for the node at pointer `p`. -/
def db_cleanup_recurs_trace : node_t → ptr → List access
  | .null, _ => []
  | .node _ _ lchild rchild, p =>
    db_cleanup_recurs_trace lchild (p ++ [.l]) ++ db_cleanup_recurs_trace rchild (p ++ [.r]) ++
      node_destructor_trace p

/-- The accesses of `db_cleanup()`. -/
def db_cleanup_trace (head : node_t) : List access :=
  db_cleanup_recurs_trace head.lchild [.l] ++ db_cleanup_recurs_trace head.rchild [.r]

/-- The locks an operation holds, latest first, each with the mode it was taken in. -/
abbrev holding := List (ptr × locktype_t)

/-- The locks held once the lock of `p` has been released. -/
def release (p : ptr) : holding → holding
  | [] => []
  | e :: h => if e.1 = p then h else e :: release p h

/-- Whether the lock of `p` is held, in any mode. -/
def holds (h : holding) (p : ptr) : Bool := h.any (fun e => decide (e.1 = p))

/-- Whether the lock of `p` is held as a write lock. -/
def holds_write (h : holding) (p : ptr) : Bool :=
  h.any (fun e => decide (e.1 = p) && decide (e.2 = .l_write))

/-- The locks held after a sequence of accesses. -/
def held_after (h : holding) : List access → holding
  | [] => h
  | .lock lt p :: t => held_after ((p, lt) :: h) t
  | .unlock p :: t => held_after (release p h) t
  | .read _ _ :: t => held_after h t
  | .write _ _ :: t => held_after h t
  | .destroy _ :: t => held_after h t

/-- Every read of a field happens with the lock of its node held, every write with the
write lock of its node held. -/
def guarded (h : holding) : List access → Bool
  | [] => true
  | .lock lt p :: t => guarded ((p, lt) :: h) t
  | .unlock p :: t => guarded (release p h) t
  | .read p _ :: t => holds h p && guarded h t
  | .write p _ :: t => holds_write h p && guarded h t
  | .destroy _ :: t => guarded h t

/-- The first access to a field made without the lock it needs, if there is one. -/
def first_unguarded (h : holding) : List access → Option access
  | [] => none
  | .lock lt p :: t => first_unguarded ((p, lt) :: h) t
  | .unlock p :: t => first_unguarded (release p h) t
  | .read p f :: t => if holds h p then first_unguarded h t else some (.read p f)
  | .write p f :: t => if holds_write h p then first_unguarded h t else some (.write p f)
  | .destroy _ :: t => first_unguarded h t

/-- Every unlock is of a lock that is held. -/
def unlocks_held (h : holding) : List access → Bool
  | [] => true
  | .lock lt p :: t => unlocks_held ((p, lt) :: h) t
  | .unlock p :: t => holds h p && unlocks_held (release p h) t
  | .read _ _ :: t => unlocks_held h t
  | .write _ _ :: t => unlocks_held h t
  | .destroy _ :: t => unlocks_held h t

/-- Lock coupling from the sentinel down: the first lock taken is the sentinel's, with
nothing held; every other lock is taken while the lock of the parent node is held; and no
more than two locks are ever held. -/
def coupled (h : holding) : List access → Bool
  | [] => true
  | .lock lt p :: t =>
    (if p = [] then h.isEmpty else holds h p.dropLast) && decide (h.length + 1 ≤ 2) &&
      coupled ((p, lt) :: h) t
  | .unlock p :: t => coupled (release p h) t
  | .read _ _ :: t => coupled h t
  | .write _ _ :: t => coupled h t
  | .destroy _ :: t => coupled h t

/-! ## Stores built with any arguments -/

/-- The stores reachable from the empty store by calls of `db_add` and `db_remove`, whatever
their arguments. -/
inductive built : node_t → Prop where
  | init : built head0
  | add {head : node_t} (name value : CStr) : built head → built (db_add head name value).1
  | remove {head : node_t} (name : CStr) : built head → built (db_remove head name).1


/-! ## The dump of the tree: `db_print` -/

/-- The string literal `"(root)"`. -/
def root_text : CStr := [40, 114, 111, 111, 116, 41]

/-- The string literal `"(null)"`. -/
def null_text : CStr := [40, 110, 117, 108, 108, 41]

/-- The function `print_spaces(lvl, out)`: the bytes it writes, one space per turn of its
loop. -/
def print_spaces : Nat → CStr
  | 0 => []
  | lvl + 1 => 32 :: print_spaces lvl

/-- The function `db_print_recurs(node, lvl, out)` for the node at pointer `p` (the test
`node == &head` is `p = []`): the bytes it writes. -/
def db_print_recurs : node_t → ptr → Nat → CStr
  | .null, _, lvl => print_spaces lvl ++ (null_text ++ [10])
  | .node name value left right, p, lvl =>
    print_spaces lvl ++
      ((if p = [] then root_text ++ [10] else name ++ [32] ++ value ++ [10]) ++
        (db_print_recurs left (p ++ [.l]) (lvl + 1) ++
          db_print_recurs right (p ++ [.r]) (lvl + 1)))

/-- The function `db_print(filename)`: the returned `int` and the bytes written, to
`stdout` or to the file.  `filename` is `none` for `NULL`; `fopen_ok` says which files
`fopen(filename, "w+")` can open. -/
def db_print (head : node_t) (filename : Option CStr) (fopen_ok : CStr → Bool) : Int × CStr :=
  match filename with
  | none => (0, db_print_recurs head [] 0)
  | some f =>
    if f.dropWhile isspace = [] then (0, db_print_recurs head [] 0)
    else if fopen_ok (f.dropWhile isspace) = false then (-1, [])
    else (0, db_print_recurs head [] 0)

/-- A line of the rendering described for the dump: the line of the sentinel, the line of
a null child slot at a depth, or the line of a real node at a depth. -/
inductive row where
  | root : row
  | null (d : Nat) : row
  | real (d : Nat) (name value : CStr) : row
  deriving DecidableEq

/-- The text of a line, without its newline: `(root)`; `d` spaces then `(null)`; `d` spaces
then the name, a space and the value. -/
def row.text : row → CStr
  | .root => root_text
  | .null d => List.replicate d 32 ++ null_text
  | .real d name value => List.replicate d 32 ++ (name ++ [32] ++ value)

/-- The lines of what hangs in a child slot at depth `d`, in pre-order: a null slot is one
`(null)` line; a node is its own line, then the lines of its left slot, then those of its
right slot, both at depth `d + 1`. -/
def rows_below : node_t → Nat → List row
  | .null, d => [.null d]
  | .node name value lc rc, d =>
    .real d name value :: (rows_below lc (d + 1) ++ rows_below rc (d + 1))

/-- The lines of the rendering of a store: the sentinel at depth 0, then its two slots. -/
def rows (head : node_t) : List row :=
  .root :: (rows_below head.lchild 1 ++ rows_below head.rchild 1)

/-- The text made of lines, each followed by a newline. -/
def text_of : List row → CStr
  | [] => []
  | r :: rs => r.text ++ [10] ++ text_of rs

/-- The real nodes below a slot at depth `d`, in pre-order, each with its depth. -/
def preorder : node_t → Nat → List (Nat × CStr × CStr)
  | .null, _ => []
  | .node name value lc rc, d => (d, name, value) :: (preorder lc (d + 1) ++ preorder rc (d + 1))

/-- The real nodes of a store in pre-order, each with its depth below the sentinel. -/
def real_nodes (head : node_t) : List (Nat × CStr × CStr) :=
  preorder head.lchild 1 ++ preorder head.rchild 1

/-- The node a line stands for, when it is the line of a real node. -/
def row.node : row → Option (Nat × CStr × CStr)
  | .real d name value => some (d, name, value)
  | _ => none

/-- The text with exactly one line per real node and nothing else. -/
def real_text (head : node_t) : CStr :=
  text_of ((real_nodes head).map (fun e => row.real e.1 e.2.1 e.2.2))

end DB

namespace Server

/-! ## The client list of `server.c` and `delete_all` -/

/-- A `client_t`: its thread and its stream.  The links `prev` and `next` are given by the
position of the client in the list that starts at `thread_list_head`. -/
structure client_t where
  thread : Nat
  cxstr : Nat
  deriving DecidableEq

/-- The `for` loop of `delete_all`, with `client` running over the list: the threads handed
to `pthread_cancel`, in order.  Each call is taken to return 0. -/
def delete_all_loop (thread_list_head : client_t) : List client_t → List Nat
  | [] => []
  | _ :: next => thread_list_head.thread :: delete_all_loop thread_list_head next

/-- The function `delete_all`, run on the list that starts at `thread_list_head` (the empty
list for `NULL`): the threads handed to `pthread_cancel`, in order. -/
def delete_all (thread_list : List client_t) : List Nat :=
  match thread_list with
  | [] => []
  | thread_list_head :: _ => delete_all_loop thread_list_head thread_list

/-! ## The stop/go gate and the loop of `run_client` -/

/-- Where a client thread stands in the `while` loop of `run_client`. -/
inductive place where
  | serve : place
  | gate : place
  | command : place
  deriving DecidableEq

/-- The shared state the gate is about: `c_controller.stopped` and the place of each client
thread (threads are numbered). -/
structure gate_state where
  stopped : Int
  place_of : Nat → place

/-- The steps of the console and of the client threads.  `comm_serve i` is client `i`
reading a command, `client_control_wait i` is its call of `client_control_wait` returning,
`interpret_command i` is it executing the command it read. -/
inductive event where
  | client_control_stop : event
  | client_control_release : event
  | comm_serve (i : Nat) : event
  | client_control_wait (i : Nat) : event
  | interpret_command (i : Nat) : event
  deriving DecidableEq

/-- The state with thread `i` moved to place `p`. -/
def move (s : gate_state) (i : Nat) (p : place) : gate_state :=
  { stopped := s.stopped, place_of := fun j => if j = i then p else s.place_of j }

/-- One step; `none` when the step cannot be taken in the state.  `client_control_wait`
returns only when it finds `stopped` different from 1 (it tests the flag under `go_mutex`,
which the console holds while it writes the flag). -/
def step (s : gate_state) : event → Option gate_state
  | .client_control_stop => some { stopped := 1, place_of := s.place_of }
  | .client_control_release => some { stopped := 0, place_of := s.place_of }
  | .comm_serve i => if s.place_of i = .serve then some (move s i .gate) else none
  | .client_control_wait i =>
    if s.place_of i = .gate ∧ s.stopped ≠ 1 then some (move s i .command) else none
  | .interpret_command i => if s.place_of i = .command then some (move s i .serve) else none

/-- A sequence of steps, taken one after the other. -/
def steps (s : gate_state) : List event → Option gate_state
  | [] => some s
  | e :: es =>
    match step s e with
    | none => none
    | some s2 => steps s2 es

/-- The state at start: `stopped` is 0 and every client thread is about to read. -/
def gate_init : gate_state := { stopped := 0, place_of := fun _ => .serve }

/-! ## The client list as linked records: `run_client` and `thread_cleanup` -/

/-- The registry state of `server.c`: the pointer `thread_list_head`, the links `prev` and
`next` of each `client_t` (a client is named by its address, `none` is `NULL`), and
`s_controller.num_client_threads`. -/
structure registry where
  thread_list_head : Option Nat
  prev : Nat → Option Nat
  next : Nat → Option Nat
  num_client_threads : Int

/-- The registry at start: an empty list and a count of 0. -/
def registry_init : registry :=
  { thread_list_head := none, prev := fun _ => none, next := fun _ => none,
    num_client_threads := 0 }

/-- Step 2 of `run_client` for the client at address `c`, taken as one step:
`c->prev = NULL; c->next = thread_list_head; if (thread_list_head != NULL)
thread_list_head->prev = c; thread_list_head = c;` and then `num_client_threads++`. -/
def register (s : registry) (c : Nat) : registry :=
  { thread_list_head := some c,
    prev := fun j =>
      if s.thread_list_head = some j then some c else if j = c then none else s.prev j,
    next := fun j => if j = c then s.thread_list_head else s.next j,
    num_client_threads := s.num_client_threads + 1 }

/-- The function `thread_cleanup` for the client at address `c`, taken as one step:
`n = c->next; p = c->prev; if (n != NULL) n->prev = p; if (c == thread_list_head)
thread_list_head = c->next; else if (p != NULL) p->next = n;` and then
`num_client_threads--`. -/
def thread_cleanup (s : registry) (c : Nat) : registry :=
  { thread_list_head :=
      if s.thread_list_head = some c then s.next c else s.thread_list_head,
    prev := fun j => if s.next c = some j then s.prev c else s.prev j,
    next := fun j =>
      if s.thread_list_head = some c then s.next j
      else if s.prev c = some j then s.next c else s.next j,
    num_client_threads := s.num_client_threads - 1 }

/-- The records `l`, in this order, are chained from the pointer `cur` on: each is the
`next` of the one before, the `prev` of each is the one before it (`before` for the
first), and the `next` of the last is `NULL`. -/
def linked (s : registry) : Option Nat → Option Nat → List Nat → Prop
  | _, cur, [] => cur = none
  | before, cur, c :: rest => cur = some c ∧ s.prev c = before ∧ linked s (some c) (s.next c) rest

/-- The list that starts at `thread_list_head` is a well-formed doubly linked list of the
distinct clients `l`. -/
def well_formed (s : registry) (l : List Nat) : Prop :=
  l.Nodup ∧ linked s none s.thread_list_head l

/-- The registry states reachable by registrations and cleanups, each with the clients
that have registered and have not been cleaned up yet, latest first.  A client registers
when it is not in the list (its record is fresh from `malloc`) and is cleaned up when it is
in the list. -/
inductive registered : registry → List Nat → Prop where
  | init : registered registry_init []
  | register {s : registry} {l : List Nat} (c : Nat) :
      registered s l → c ∉ l → registered (register s c) (c :: l)
  | cleanup {s : registry} {l : List Nat} (c : Nat) :
      registered s l → c ∈ l → registered (thread_cleanup s c) (l.erase c)


/-- The registry after the clients at addresses 10, 20 and 30 have registered, in this
order. -/
def registry_three : registry := register (register (register registry_init 10) 20) 30

end Server

namespace DB

/-! ## Lemmas -/

/-! ### The order given by `strcmp` -/

theorem strcmp_self (a : CStr) : strcmp a a = 0 := by
  induction a with
  | nil => rfl
  | cons x xs ih => simp [strcmp, ih]

theorem strcmp_eq_zero_iff (a b : CStr) : strcmp a b = 0 ↔ a = b := by
  induction a generalizing b with
  | nil => cases b <;> simp [strcmp]
  | cons x xs ih =>
    cases b with
    | nil => simp [strcmp]
    | cons y ys =>
      simp only [strcmp]
      split_ifs with h1 h2
      · simp; omega
      · simp; omega
      · have : x = y := by omega
        simp [ih, this]

theorem strcmp_neg_iff_pos (a b : CStr) : strcmp a b < 0 ↔ 0 < strcmp b a := by
  induction a generalizing b with
  | nil => cases b <;> simp [strcmp]
  | cons x xs ih =>
    cases b with
    | nil => simp [strcmp]
    | cons y ys =>
      simp only [strcmp]
      split_ifs with h1 h2 h3 <;> first | omega | simp | exact ih ys

theorem strcmp_trans {a b c : CStr} (h1 : strcmp a b < 0) (h2 : strcmp b c < 0) :
    strcmp a c < 0 := by
  induction a generalizing b c with
  | nil =>
    cases c with
    | nil => cases b <;> simp [strcmp] at h1 h2
    | cons z zs => simp [strcmp]
  | cons x xs ih =>
    cases b with
    | nil => simp [strcmp] at h1
    | cons y ys =>
      cases c with
      | nil => simp [strcmp] at h2
      | cons z zs =>
        simp only [strcmp] at h1 h2 ⊢
        split_ifs at h1 h2 ⊢ <;> first | omega | exact ih h1 h2

theorem strcmp_total {a b : CStr} (h1 : ¬ strcmp a b < 0) (h2 : strcmp a b ≠ 0) :
    strcmp b a < 0 := by
  rw [strcmp_neg_iff_pos]; omega

theorem strcmp_irrefl (a : CStr) : ¬ strcmp a a < 0 := by
  rw [strcmp_self]; decide

theorem strcmp_nil_right (a : CStr) : ¬ strcmp a [] < 0 := by
  cases a <;> simp [strcmp]


theorem search_l_null {name pn : CStr} (pv : CStr) (rc : node_t) (h : strcmp name pn < 0) :
    search name (.node pn pv .null rc) = (none, []) := by
  rw [search.eq_def]; simp [h]

theorem search_l_hit {name pn ln : CStr} (pv lv : CStr) (ll lr rc : node_t)
    (h : strcmp name pn < 0) (h0 : strcmp name ln = 0) :
    search name (.node pn pv (.node ln lv ll lr) rc) = (some [.l], []) := by
  rw [search.eq_def]; simp [h, h0]

theorem search_l_miss {name pn ln : CStr} (pv lv : CStr) (ll lr rc : node_t)
    (h : strcmp name pn < 0) (h0 : ¬ strcmp name ln = 0) :
    search name (.node pn pv (.node ln lv ll lr) rc) =
      ((search name (.node ln lv ll lr)).1.map (fun p => .l :: p),
        .l :: (search name (.node ln lv ll lr)).2) := by
  conv_lhs => rw [search.eq_def]
  simp [h, h0]

theorem search_r_null {name pn : CStr} (pv : CStr) (lc : node_t) (h : ¬ strcmp name pn < 0) :
    search name (.node pn pv lc .null) = (none, []) := by
  rw [search.eq_def]; simp [h]

theorem search_r_hit {name pn ln : CStr} (pv lv : CStr) (ll lr lc : node_t)
    (h : ¬ strcmp name pn < 0) (h0 : strcmp name ln = 0) :
    search name (.node pn pv lc (.node ln lv ll lr)) = (some [.r], []) := by
  rw [search.eq_def]; simp [h, h0]

theorem search_r_miss {name pn ln : CStr} (pv lv : CStr) (ll lr lc : node_t)
    (h : ¬ strcmp name pn < 0) (h0 : ¬ strcmp name ln = 0) :
    search name (.node pn pv lc (.node ln lv ll lr)) =
      ((search name (.node ln lv ll lr)).1.map (fun p => .r :: p),
        .r :: (search name (.node ln lv ll lr)).2) := by
  conv_lhs => rw [search.eq_def]
  simp [h, h0]

theorem db_query_eq (name res : CStr) (len : Nat) (p : node_t) (hp : p ≠ .null) :
    db_query p name res len = snprintf res len ((lookup name (side name p)).getD not_found) := by
  induction p with
  | null => exact absurd rfl hp
  | node pn pv lc rc ihl ihr =>
    by_cases h : strcmp name pn < 0
    · cases lc with
      | null => simp [db_query, search_l_null _ _ h, side, h, lookup, node_t.name, node_t.lchild]
      | node ln lv ll lr =>
        have ih := ihl (by simp)
        by_cases h0 : strcmp name ln = 0
        · simp [db_query, search_l_hit _ _ _ _ _ h h0, side, h, h0, lookup, node_t.name,
            node_t.lchild, deref, node_t.value]
        · rw [db_query] at ih ⊢
          rw [search_l_miss _ _ _ _ _ h h0]
          have e : lookup name (side name (.node pn pv (.node ln lv ll lr) rc)) =
              lookup name (side name (.node ln lv ll lr)) := by
            simp only [side, node_t.name, node_t.lchild, node_t.rchild, h, if_true]
            rw [lookup]; simp only [h0, if_false]
            split_ifs <;> rfl
          rw [e, ← ih]
          cases (search name (node_t.node ln lv ll lr)).1 <;> simp [deref]
    · cases rc with
      | null => simp [db_query, search_r_null _ _ h, side, h, lookup, node_t.name, node_t.rchild]
      | node ln lv ll lr =>
        have ih := ihr (by simp)
        by_cases h0 : strcmp name ln = 0
        · simp [db_query, search_r_hit _ _ _ _ _ h h0, side, h, h0, lookup, node_t.name,
            node_t.rchild, deref, node_t.value]
        · rw [db_query] at ih ⊢
          rw [search_r_miss _ _ _ _ _ h h0]
          have e : lookup name (side name (.node pn pv lc (.node ln lv ll lr))) =
              lookup name (side name (.node ln lv ll lr)) := by
            simp only [side, node_t.name, node_t.lchild, node_t.rchild, h, if_false]
            rw [lookup]; simp only [h0, if_false]
            split_ifs <;> rfl
          rw [e, ← ih]
          cases (search name (node_t.node ln lv ll lr)).1 <;> simp [deref]


theorem db_add_descend_l {name pn ln : CStr} (value pv lv : CStr) (ll lr rc : node_t)
    (h : strcmp name pn < 0) (h0 : ¬ strcmp name ln = 0) :
    db_add (.node pn pv (.node ln lv ll lr) rc) name value =
      (.node pn pv (db_add (.node ln lv ll lr) name value).1 rc,
        (db_add (.node ln lv ll lr) name value).2) := by
  rw [db_add, db_add, search_l_miss _ _ _ _ _ h h0]
  rcases hs : search name (.node ln lv ll lr) with ⟨res, pp⟩
  cases res with
  | some t => simp
  | none =>
    simp only [Option.map, deref, List.cons_append, assign]
    split_ifs <;> rfl

theorem db_add_descend_r {name pn ln : CStr} (value pv lv : CStr) (ll lr lc : node_t)
    (h : ¬ strcmp name pn < 0) (h0 : ¬ strcmp name ln = 0) :
    db_add (.node pn pv lc (.node ln lv ll lr)) name value =
      (.node pn pv lc (db_add (.node ln lv ll lr) name value).1,
        (db_add (.node ln lv ll lr) name value).2) := by
  rw [db_add, db_add, search_r_miss _ _ _ _ _ h h0]
  rcases hs : search name (.node ln lv ll lr) with ⟨res, pp⟩
  cases res with
  | some t => simp
  | none =>
    simp only [Option.map, deref, List.cons_append, assign]
    split_ifs <;> rfl

theorem db_add_eq (name value : CStr) (p : node_t) (hp : p ≠ .null) :
    db_add p name value =
      (with_side name p (graft name (node_constructor name value .null .null) (side name p)),
        if (lookup name (side name p)).isSome then 0 else 1) := by
  induction p with
  | null => exact absurd rfl hp
  | node pn pv lc rc ihl ihr =>
    by_cases h : strcmp name pn < 0
    · cases lc with
      | null =>
        simp [db_add, search_l_null _ _ h, side, with_side, h, lookup, graft, node_t.name,
          node_t.lchild, deref, assign]
      | node ln lv ll lr =>
        by_cases h0 : strcmp name ln = 0
        · simp [db_add, search_l_hit _ _ _ _ _ h h0, side, with_side, h, h0, lookup, graft,
            node_t.name, node_t.lchild]
        · rw [db_add_descend_l _ _ _ _ _ _ h h0, ihl (by simp)]
          simp only [side, with_side, node_t.name, node_t.lchild, node_t.rchild, h, if_true]
          rw [lookup, graft]
          simp only [h0, if_false]
          split_ifs <;> rfl
    · cases rc with
      | null =>
        simp [db_add, search_r_null _ _ h, side, with_side, h, lookup, graft, node_t.name,
          node_t.rchild, deref, assign]
      | node ln lv ll lr =>
        by_cases h0 : strcmp name ln = 0
        · simp [db_add, search_r_hit _ _ _ _ _ h h0, side, with_side, h, h0, lookup, graft,
            node_t.name, node_t.rchild]
        · rw [db_add_descend_r _ _ _ _ _ _ h h0, ihr (by simp)]
          simp only [side, with_side, node_t.name, node_t.lchild, node_t.rchild, h, if_false]
          rw [lookup, graft]
          simp only [h0, if_false]
          split_ifs <;> rfl


theorem db_remove_descend_l {name pn ln : CStr} (pv lv : CStr) (ll lr rc : node_t)
    (h : strcmp name pn < 0) (h0 : ¬ strcmp name ln = 0) :
    db_remove (.node pn pv (.node ln lv ll lr) rc) name =
      (.node pn pv (db_remove (.node ln lv ll lr) name).1 rc,
        (db_remove (.node ln lv ll lr) name).2) := by
  rw [db_remove, db_remove, search_l_miss _ _ _ _ _ h h0]
  rcases hs : search name (.node ln lv ll lr) with ⟨res, pp⟩
  cases res with
  | none => simp
  | some t =>
    simp only [Option.map, deref, List.cons_append, assign, set_strings]
    split_ifs <;> rfl

theorem db_remove_descend_r {name pn ln : CStr} (pv lv : CStr) (ll lr lc : node_t)
    (h : ¬ strcmp name pn < 0) (h0 : ¬ strcmp name ln = 0) :
    db_remove (.node pn pv lc (.node ln lv ll lr)) name =
      (.node pn pv lc (db_remove (.node ln lv ll lr) name).1,
        (db_remove (.node ln lv ll lr) name).2) := by
  rw [db_remove, db_remove, search_r_miss _ _ _ _ _ h h0]
  rcases hs : search name (.node ln lv ll lr) with ⟨res, pp⟩
  cases res with
  | none => simp
  | some t =>
    simp only [Option.map, deref, List.cons_append, assign, set_strings]
    split_ifs <;> rfl

theorem db_remove_hit_l {name pn ln : CStr} (pv lv : CStr) (ll lr rc : node_t)
    (h : strcmp name pn < 0) (h0 : strcmp name ln = 0) :
    db_remove (.node pn pv (.node ln lv ll lr) rc) name =
      (.node pn pv (unlink (.node ln lv ll lr)) rc, 1) := by
  have e : name = ln := (strcmp_eq_zero_iff _ _).1 h0
  subst e
  rw [db_remove, search_l_hit _ _ _ _ _ h h0]
  simp only [deref, node_t.name, node_t.lchild, node_t.rchild, h, if_true, List.nil_append,
    List.cons_append, assign, set_strings, unlink, node_t.value]
  split_ifs <;> rfl

theorem db_remove_hit_r {name pn ln : CStr} (pv lv : CStr) (ll lr lc : node_t)
    (h : ¬ strcmp name pn < 0) (h0 : strcmp name ln = 0) :
    db_remove (.node pn pv lc (.node ln lv ll lr)) name =
      (.node pn pv lc (unlink (.node ln lv ll lr)), 1) := by
  have e : name = ln := (strcmp_eq_zero_iff _ _).1 h0
  subst e
  rw [db_remove, search_r_hit _ _ _ _ _ h h0]
  simp only [deref, node_t.name, node_t.lchild, node_t.rchild, h, if_false, List.nil_append,
    List.cons_append, assign, set_strings, unlink, node_t.value]
  split_ifs <;> rfl

theorem db_remove_eq (name : CStr) (p : node_t) (hp : p ≠ .null) :
    db_remove p name =
      (with_side name p (prune name (side name p)),
        if (lookup name (side name p)).isSome then 1 else 0) := by
  induction p with
  | null => exact absurd rfl hp
  | node pn pv lc rc ihl ihr =>
    by_cases h : strcmp name pn < 0
    · cases lc with
      | null =>
        simp [db_remove, search_l_null _ _ h, side, with_side, h, lookup, prune, node_t.name,
          node_t.lchild]
      | node ln lv ll lr =>
        by_cases h0 : strcmp name ln = 0
        · rw [db_remove_hit_l _ _ _ _ _ h h0]
          simp [side, with_side, h, h0, lookup, prune, node_t.name, node_t.lchild]
        · rw [db_remove_descend_l _ _ _ _ _ h h0, ihl (by simp)]
          simp only [side, with_side, node_t.name, node_t.lchild, node_t.rchild, h, if_true]
          rw [lookup, prune]
          simp only [h0, if_false]
          split_ifs <;> rfl
    · cases rc with
      | null =>
        simp [db_remove, search_r_null _ _ h, side, with_side, h, lookup, prune, node_t.name,
          node_t.rchild]
      | node ln lv ll lr =>
        by_cases h0 : strcmp name ln = 0
        · rw [db_remove_hit_r _ _ _ _ _ h h0]
          simp [side, with_side, h, h0, lookup, prune, node_t.name, node_t.rchild]
        · rw [db_remove_descend_r _ _ _ _ _ h h0, ihr (by simp)]
          simp only [side, with_side, node_t.name, node_t.lchild, node_t.rchild, h, if_false]
          rw [lookup, prune]
          simp only [h0, if_false]
          split_ifs <;> rfl


@[simp] theorem entries_null : entries .null = [] := rfl

@[simp] theorem entries_node (n v : CStr) (lc rc : node_t) :
    entries (.node n v lc rc) = entries lc ++ (n, v) :: entries rc := rfl

@[simp] theorem names_null : names .null = [] := rfl

@[simp] theorem names_node (n v : CStr) (lc rc : node_t) :
    names (.node n v lc rc) = names lc ++ n :: names rc := by
  simp [names]

theorem mem_names_of_mem_entries {t : node_t} {e : CStr × CStr} (h : e ∈ entries t) :
    e.1 ∈ names t :=
  List.mem_map_of_mem _ h

theorem mem_names_iff {t : node_t} {k : CStr} : k ∈ names t ↔ ∃ v, (k, v) ∈ entries t := by
  simp [names]

theorem bst_iff_sorted (t : node_t) :
    bst t ↔ (names t).Pairwise (fun a b => strcmp a b < 0) := by
  induction t with
  | null => simp [bst]
  | node n v lc rc ihl ihr =>
    simp only [bst, names_node, List.pairwise_append, List.pairwise_cons, List.mem_cons, ihl, ihr]
    constructor
    · rintro ⟨hl, hr, hln, hnr⟩
      refine ⟨hl, ⟨hnr, hr⟩, ?_⟩
      intro a ha b hb
      rcases hb with rfl | hb
      · exact hln a ha
      · exact strcmp_trans (hln a ha) (hnr b hb)
    · rintro ⟨hl, ⟨hnr, hr⟩, hx⟩
      exact ⟨hl, hr, fun k hk => hx k hk n (Or.inl rfl), hnr⟩

theorem lookup_eq_none_of_not_mem (name : CStr) (t : node_t) (h : name ∉ names t) :
    lookup name t = none := by
  induction t with
  | null => rfl
  | node n v lc rc ihl ihr =>
    simp only [names_node, List.mem_append, List.mem_cons, not_or] at h
    have hne : ¬ strcmp name n = 0 := fun h0 => h.2.1 ((strcmp_eq_zero_iff _ _).1 h0)
    simp only [lookup, hne, if_false]
    split_ifs
    · exact ihl h.1
    · exact ihr h.2.2

theorem mem_of_lookup_eq_some {name v : CStr} {t : node_t} (h : lookup name t = some v) :
    (name, v) ∈ entries t := by
  induction t with
  | null => simp [lookup] at h
  | node n w lc rc ihl ihr =>
    simp only [lookup] at h
    simp only [entries_node, List.mem_append, List.mem_cons]
    split_ifs at h with h0 h1
    · have e : name = n := (strcmp_eq_zero_iff _ _).1 h0
      simp only [Option.some.injEq] at h
      subst e; subst h
      exact Or.inr (Or.inl rfl)
    · exact Or.inl (ihl h)
    · exact Or.inr (Or.inr (ihr h))

theorem lookup_of_mem {name v : CStr} {t : node_t} (hb : bst t) (h : (name, v) ∈ entries t) :
    lookup name t = some v := by
  induction t with
  | null => simp at h
  | node n w lc rc ihl ihr =>
    obtain ⟨hl, hr, hln, hnr⟩ := hb
    simp only [entries_node, List.mem_append, List.mem_cons, Prod.mk.injEq] at h
    rcases h with h | ⟨rfl, rfl⟩ | h
    · have hlt : strcmp name n < 0 := hln _ (mem_names_of_mem_entries h)
      have hne : ¬ strcmp name n = 0 := by omega
      simp only [lookup, hne, hlt, if_true, if_false]
      exact ihl hl h
    · simp [lookup, strcmp_self]
    · have hgt : strcmp n name < 0 := hnr _ (mem_names_of_mem_entries h)
      have hgt2 := (strcmp_neg_iff_pos _ _).1 hgt
      have hne : ¬ strcmp name n = 0 := by omega
      have hnl : ¬ strcmp name n < 0 := by omega
      simp only [lookup, hne, hnl, if_false]
      exact ihr hr h

theorem lookup_isSome_iff {name : CStr} {t : node_t} (hb : bst t) :
    (lookup name t).isSome ↔ name ∈ names t := by
  constructor
  · intro h
    obtain ⟨v, hv⟩ := Option.isSome_iff_exists.1 h
    exact mem_names_of_mem_entries (mem_of_lookup_eq_some hv)
  · intro h
    obtain ⟨v, hv⟩ := mem_names_iff.1 h
    rw [lookup_of_mem hb hv]; rfl


theorem snprintf_short (buf s : CStr) (h : strlen s < MAXLEN) : snprintf buf MAXLEN s = s := by
  simp only [strlen, MAXLEN] at h
  simp only [snprintf, MAXLEN]
  exact List.take_of_length_le (by omega)

theorem node_constructor_short {name value : CStr} (lc rc : node_t)
    (hn : strlen name < MAXLEN) (hv : strlen value < MAXLEN) :
    node_constructor name value lc rc = .node name value lc rc := by
  have h : ¬ (strlen name > MAXLEN ∨ strlen value > MAXLEN) := by omega
  simp only [node_constructor, h, if_false, snprintf_short _ _ hn, snprintf_short _ _ hv]

theorem graft_of_lookup_isSome (name : CStr) (x t : node_t) (h : (lookup name t).isSome) :
    graft name x t = t := by
  induction t with
  | null => simp [lookup] at h
  | node n v lc rc ihl ihr =>
    simp only [lookup] at h
    simp only [graft]
    split_ifs at h ⊢ with h0 h1
    · rfl
    · rw [ihl h]
    · rw [ihr h]

theorem graft_null_of_lookup_none (name : CStr) (t : node_t) (h : lookup name t = none) :
    graft name .null t = t := by
  induction t with
  | null => rfl
  | node n v lc rc ihl ihr =>
    simp only [lookup] at h
    simp only [graft]
    split_ifs at h ⊢ with h0 h1
    · rw [ihl h]
    · rw [ihr h]

theorem entries_graft {name a b : CStr} {t : node_t} (h : lookup name t = none)
    (e : CStr × CStr) :
    e ∈ entries (graft name (.node a b .null .null) t) ↔ e = (a, b) ∨ e ∈ entries t := by
  induction t with
  | null => simp [graft]
  | node n v lc rc ihl ihr =>
    simp only [lookup] at h
    simp only [graft]
    split_ifs at h ⊢ with h0 h1
    · simp only [entries_node, List.mem_append, List.mem_cons, ihl h]; tauto
    · simp only [entries_node, List.mem_append, List.mem_cons, ihr h]; tauto

theorem mem_names_graft {name a b k : CStr} {t : node_t}
    (hk : k ∈ names (graft name (.node a b .null .null) t)) : k = a ∨ k ∈ names t := by
  induction t with
  | null => simpa [graft] using hk
  | node n v lc rc ihl ihr =>
    simp only [graft] at hk
    split_ifs at hk with h0 h1
    · exact Or.inr hk
    · simp only [names_node, List.mem_append, List.mem_cons] at hk ⊢
      rcases hk with hk | hk | hk
      · rcases ihl hk with h | h
        · exact Or.inl h
        · exact Or.inr (Or.inl h)
      · exact Or.inr (Or.inr (Or.inl hk))
      · exact Or.inr (Or.inr (Or.inr hk))
    · simp only [names_node, List.mem_append, List.mem_cons] at hk ⊢
      rcases hk with hk | hk | hk
      · exact Or.inr (Or.inl hk)
      · exact Or.inr (Or.inr (Or.inl hk))
      · rcases ihr hk with h | h
        · exact Or.inl h
        · exact Or.inr (Or.inr (Or.inr h))

theorem bst_graft {name value : CStr} {t : node_t} (hb : bst t) :
    bst (graft name (.node name value .null .null) t) := by
  induction t with
  | null => simp [graft, bst]
  | node n v lc rc ihl ihr =>
    obtain ⟨hl, hr, hln, hnr⟩ := hb
    simp only [graft]
    split_ifs with h0 h1
    · exact ⟨hl, hr, hln, hnr⟩
    · refine ⟨ihl hl, hr, ?_, hnr⟩
      intro k hk
      rcases mem_names_graft hk with rfl | hk
      · exact h1
      · exact hln k hk
    · refine ⟨hl, ihr hr, hln, ?_⟩
      intro k hk
      rcases mem_names_graft hk with rfl | hk
      · exact strcmp_total h1 h0
      · exact hnr k hk

theorem fits_graft {name : CStr} {x t : node_t} (hx : fits x) (ht : fits t) :
    fits (graft name x t) := by
  induction t with
  | null => simpa [graft] using hx
  | node n v lc rc ihl ihr =>
    obtain ⟨h1, h2, h3, h4⟩ := ht
    simp only [graft]
    split_ifs
    · exact ⟨h1, h2, h3, h4⟩
    · exact ⟨h1, h2, ihl h3, h4⟩
    · exact ⟨h1, h2, h3, ihr h4⟩


theorem prune_of_lookup_none (name : CStr) (t : node_t) (h : lookup name t = none) :
    prune name t = t := by
  induction t with
  | null => rfl
  | node n v lc rc ihl ihr =>
    simp only [lookup] at h
    simp only [prune]
    split_ifs at h ⊢ with h0 h1
    · rw [ihl h]
    · rw [ihr h]

/-- The node the left-most walk stops at is the first of the in-order traversal, and
replacing it by its right child removes exactly its entry. -/
theorem entries_leftmost (t : node_t) (ht : t ≠ .null) :
    entries t = ((deref t (leftmost t)).name, (deref t (leftmost t)).value) ::
      entries (assign t (leftmost t) (deref t (leftmost t)).rchild) := by
  induction t with
  | null => exact absurd rfl ht
  | node n v lc rc ihl _ =>
    cases lc with
    | null => simp [leftmost, deref, assign, node_t.name, node_t.value, node_t.rchild]
    | node ln lv ll lr =>
      have ih := ihl (by simp)
      rw [leftmost]
      simp only [deref, assign, entries_node] at ih ⊢
      rw [ih]
      simp

theorem fits_deref {t : node_t} (ht : fits t) (p : ptr) : fits (deref t p) := by
  induction p generalizing t with
  | nil => cases t <;> simpa [deref] using ht
  | cons d p ih =>
    cases t with
    | null => simp [deref, fits]
    | node n v lc rc =>
      obtain ⟨_, _, h3, h4⟩ := ht
      cases d
      · simpa [deref] using ih h3
      · simpa [deref] using ih h4

theorem fits_assign {t x : node_t} (ht : fits t) (hx : fits x) (p : ptr) :
    fits (assign t p x) := by
  induction p generalizing t with
  | nil => cases t <;> simpa [assign] using hx
  | cons d p ih =>
    cases t with
    | null => simp [assign, fits]
    | node n v lc rc =>
      obtain ⟨h1, h2, h3, h4⟩ := ht
      cases d
      · exact ⟨h1, h2, ih h3, h4⟩
      · exact ⟨h1, h2, h3, ih h4⟩

theorem fits_rchild {t : node_t} (ht : fits t) : fits t.rchild := by
  cases t with
  | null => simp [node_t.rchild, fits]
  | node n v lc rc => exact ht.2.2.2

theorem fits_strings {t : node_t} (ht : fits t) :
    strlen t.name < MAXLEN ∧ strlen t.value < MAXLEN := by
  cases t with
  | null => simp [node_t.name, node_t.value, strlen, MAXLEN]
  | node n v lc rc => exact ⟨ht.1, ht.2.1⟩

theorem unlink_two {n v : CStr} {lc rc : node_t} (hl : lc ≠ .null) (hr : rc ≠ .null)
    (hf : fits rc) :
    unlink (.node n v lc rc) =
      .node (deref rc (leftmost rc)).name (deref rc (leftmost rc)).value lc
        (assign rc (leftmost rc) (deref rc (leftmost rc)).rchild) := by
  have hs := fits_strings (fits_deref hf (leftmost rc))
  simp only [unlink, hl, hr, if_false, snprintf_short _ _ hs.1, snprintf_short _ _ hs.2]

theorem entries_unlink {n v : CStr} {lc rc : node_t} (hf : fits rc) :
    entries (unlink (.node n v lc rc)) = entries lc ++ entries rc := by
  by_cases hr : rc = .null
  · subst hr; simp [unlink]
  · by_cases hl : lc = .null
    · subst hl; simp [unlink, hr]
    · rw [unlink_two hl hr hf, entries_node, ← entries_leftmost rc hr]

theorem fits_unlink {n v : CStr} {lc rc : node_t} (hl : fits lc) (hf : fits rc) :
    fits (unlink (.node n v lc rc)) := by
  by_cases hr : rc = .null
  · subst hr; simpa [unlink] using hl
  · by_cases hl0 : lc = .null
    · subst hl0; simpa [unlink, hr] using hf
    · rw [unlink_two hl0 hr hf]
      have hs := fits_strings (fits_deref hf (leftmost rc))
      exact ⟨hs.1, hs.2, hl, fits_assign hf (fits_rchild (fits_deref hf _)) _⟩

theorem fits_prune {name : CStr} {t : node_t} (ht : fits t) : fits (prune name t) := by
  induction t with
  | null => simp [prune, fits]
  | node n v lc rc ihl ihr =>
    obtain ⟨h1, h2, h3, h4⟩ := ht
    simp only [prune]
    split_ifs
    · exact fits_unlink h3 h4
    · exact ⟨h1, h2, ihl h3, h4⟩
    · exact ⟨h1, h2, h3, ihr h4⟩

theorem entries_prune {name : CStr} {t : node_t} (hb : bst t) (hf : fits t) :
    entries (prune name t) = (entries t).filter (fun e => decide (e.1 ≠ name)) := by
  induction t with
  | null => simp [prune]
  | node n v lc rc ihl ihr =>
    obtain ⟨hl, hr, hln, hnr⟩ := hb
    obtain ⟨_, _, h3, h4⟩ := hf
    have keepl : ∀ k : CStr, (∀ e ∈ entries lc, strcmp e.1 k < 0) →
        (entries lc).filter (fun e => decide (e.1 ≠ k)) = entries lc := by
      intro k hk
      rw [List.filter_eq_self]
      intro e he
      have := hk e he
      simp only [ne_eq, decide_not, Bool.not_eq_true', decide_eq_false_iff_not]
      intro h; rw [h] at this; exact strcmp_irrefl _ this
    have keepr : ∀ k : CStr, (∀ e ∈ entries rc, strcmp k e.1 < 0) →
        (entries rc).filter (fun e => decide (e.1 ≠ k)) = entries rc := by
      intro k hk
      rw [List.filter_eq_self]
      intro e he
      have := hk e he
      simp only [ne_eq, decide_not, Bool.not_eq_true', decide_eq_false_iff_not]
      intro h; rw [h] at this; exact strcmp_irrefl _ this
    have hle : ∀ e ∈ entries lc, strcmp e.1 n < 0 :=
      fun e he => hln _ (mem_names_of_mem_entries he)
    have hre : ∀ e ∈ entries rc, strcmp n e.1 < 0 :=
      fun e he => hnr _ (mem_names_of_mem_entries he)
    simp only [prune]
    split_ifs with h0 h1
    · have e : name = n := (strcmp_eq_zero_iff _ _).1 h0
      subst e
      rw [entries_unlink h4, entries_node, List.filter_append, List.filter_cons,
        keepl name hle, keepr name hre]
      simp
    · have hn : n ≠ name := fun h => h0 (h ▸ strcmp_self _)
      rw [entries_node, entries_node, List.filter_append, List.filter_cons, ihl hl h3,
        keepr name (fun e he => strcmp_trans h1 (hre e he))]
      simp [hn]
    · have hn : n ≠ name := fun h => h0 (h ▸ strcmp_self _)
      have h2 : strcmp n name < 0 := strcmp_total h1 h0
      rw [entries_node, entries_node, List.filter_append, List.filter_cons, ihr hr h4,
        keepl name (fun e he => strcmp_trans (hle e he) h2)]
      simp [hn]

theorem names_prune {name : CStr} {t : node_t} (hb : bst t) (hf : fits t) :
    names (prune name t) = (names t).filter (fun k => decide (k ≠ name)) := by
  simp only [names, entries_prune hb hf, List.filter_map]
  rfl

theorem bst_prune {name : CStr} {t : node_t} (hb : bst t) (hf : fits t) :
    bst (prune name t) := by
  rw [bst_iff_sorted, names_prune hb hf]
  exact ((bst_iff_sorted t).1 hb).sublist (List.filter_sublist _)


/-! ### The operations on a store, through the sentinel -/

theorem ordered_store_cases {head : node_t} (h : ordered_store head) :
    ∃ hv rc, head = .node [] hv .null rc ∧ bst rc := by
  obtain ⟨h0, h1, h2, h3⟩ := h
  cases head with
  | null => exact absurd rfl h0
  | node n v lc rc =>
    simp only [node_t.name, node_t.lchild, node_t.rchild] at h1 h2 h3
    subst h1; subst h2
    exact ⟨v, rc, rfl, h3⟩

theorem ordered_store_node {hv : CStr} {rc : node_t} (hb : bst rc) :
    ordered_store (.node [] hv .null rc) :=
  ⟨by simp, rfl, rfl, hb⟩

theorem sentinel_query (hv : CStr) (lc rc : node_t) (name res : CStr) (len : Nat) :
    db_query (.node [] hv lc rc) name res len =
      snprintf res len ((lookup name rc).getD not_found) := by
  rw [db_query_eq _ _ _ _ (by simp)]
  simp [side, node_t.name, node_t.rchild, strcmp_nil_right]

theorem sentinel_add (hv : CStr) (lc rc : node_t) (name value : CStr) :
    db_add (.node [] hv lc rc) name value =
      (.node [] hv lc (graft name (node_constructor name value .null .null) rc),
        if (lookup name rc).isSome then 0 else 1) := by
  rw [db_add_eq _ _ _ (by simp)]
  simp [side, with_side, node_t.name, node_t.rchild, strcmp_nil_right]

theorem sentinel_remove (hv : CStr) (lc rc : node_t) (name : CStr) :
    db_remove (.node [] hv lc rc) name =
      (.node [] hv lc (prune name rc), if (lookup name rc).isSome then 1 else 0) := by
  rw [db_remove_eq _ _ (by simp)]
  simp [side, with_side, node_t.name, node_t.rchild, strcmp_nil_right]

theorem lookup_eq_some_iff {name v : CStr} {t : node_t} (hb : bst t) :
    lookup name t = some v ↔ (name, v) ∈ entries t :=
  ⟨mem_of_lookup_eq_some, lookup_of_mem hb⟩

theorem fits_of_mem_entries {t : node_t} (ht : fits t) {e : CStr × CStr} (he : e ∈ entries t) :
    strlen e.1 < MAXLEN ∧ strlen e.2 < MAXLEN := by
  induction t with
  | null => simp at he
  | node n v lc rc ihl ihr =>
    obtain ⟨h1, h2, h3, h4⟩ := ht
    simp only [entries_node, List.mem_append, List.mem_cons] at he
    rcases he with he | rfl | he
    · exact ihl h3 he
    · exact ⟨h1, h2⟩
    · exact ihr h4 he

theorem fits_node_constructor (name value : CStr) : fits (node_constructor name value .null .null) := by
  simp only [node_constructor]
  split_ifs
  · trivial
  · refine ⟨?_, ?_, trivial, trivial⟩ <;>
      simp [snprintf, strlen, MAXLEN, List.length_take]

theorem sorted_nodup {l : List CStr} (h : l.Pairwise (fun a b => strcmp a b < 0)) : l.Nodup := by
  unfold List.Nodup
  refine h.imp ?_
  intro a b hab e
  rw [e] at hab
  exact strcmp_irrefl b hab



/-- Whatever the arguments, `db_add` keeps every string of the tree within 255 bytes: the
strings of a new node are written by `snprintf(..., MAXLEN, ...)`. -/
theorem fits_db_add {hv : CStr} {lc rc : node_t} (name value : CStr)
    (hf : fits (.node [] hv lc rc)) : fits (db_add (.node [] hv lc rc) name value).1 := by
  rw [sentinel_add]
  exact ⟨hf.1, hf.2.1, hf.2.2.1, fits_graft (fits_node_constructor name value) hf.2.2.2⟩

/-- Whatever the argument, `db_remove` keeps every string of the tree within 255 bytes. -/
theorem fits_db_remove {hv : CStr} {lc rc : node_t} (name : CStr)
    (hf : fits (.node [] hv lc rc)) : fits (db_remove (.node [] hv lc rc) name).1 := by
  rw [sentinel_remove]
  exact ⟨hf.1, hf.2.1, hf.2.2.1, fits_prune hf.2.2.2⟩

/-! ### Simulation of the finite map by the tree -/

theorem lookup_eq_of_agree {m : fmap} {rc : node_t} (hb : bst rc)
    (hm : ∀ k v, (k, v) ∈ entries rc ↔ m k = some v) (k : CStr) : lookup k rc = m k := by
  cases h : m k with
  | none =>
    apply lookup_eq_none_of_not_mem
    intro hk
    obtain ⟨v, hv⟩ := mem_names_iff.1 hk
    rw [(hm k v).1 hv] at h
    exact Option.noConfusion h
  | some v => exact lookup_of_mem hb ((hm k v).2 h)

theorem snprintf_whole (res s : CStr) {len : Nat} (hl : MAXLEN ≤ len) (hs : strlen s < MAXLEN) :
    snprintf res len s = s := by
  simp only [strlen, MAXLEN] at hl hs
  have h0 : len ≠ 0 := by omega
  simp only [snprintf, h0, if_false]
  exact List.take_of_length_le (by omega)

theorem call_simulation (hv : CStr) {rc : node_t} {m : fmap} (hb : bst rc) (hf : fits rc)
    (hm : ∀ k v, (k, v) ∈ entries rc ↔ m k = some v) (c : call) (hc : call_ok c) :
    ∃ rc2, (db_call (.node [] hv .null rc) c).1 = .node [] hv .null rc2 ∧ bst rc2 ∧ fits rc2 ∧
      (∀ k v, (k, v) ∈ entries rc2 ↔ (spec_call m c).1 k = some v) ∧
      (db_call (.node [] hv .null rc) c).2 = (spec_call m c).2 := by
  have hlk := lookup_eq_of_agree hb hm
  cases c with
  | add name value =>
    obtain ⟨hn, hvl⟩ := hc
    simp only [db_call, sentinel_add, node_constructor_short _ _ hn hvl, hlk, spec_call]
    cases h : m name with
    | some w =>
      refine ⟨rc, ?_, hb, hf, hm, by simp⟩
      rw [graft_of_lookup_isSome _ _ _ (by rw [hlk, h]; rfl)]
    | none =>
      refine ⟨_, rfl, bst_graft hb, fits_graft ⟨hn, hvl, trivial, trivial⟩ hf, ?_, by simp⟩
      intro k v
      rw [entries_graft (by rw [hlk, h])]
      by_cases hk : k = name
      · subst hk
        simp only [Prod.mk.injEq, true_and, if_true, Option.some.injEq]
        constructor
        · rintro (h1 | h1)
          · exact h1.symm
          · rw [(hm k v).1 h1] at h; exact Option.noConfusion h
        · intro h1; exact Or.inl h1.symm
      · simp only [Prod.mk.injEq, hk, false_and, false_or, if_false]
        exact hm k v
  | remove name =>
    simp only [db_call, sentinel_remove, hlk, spec_call]
    cases h : m name with
    | none =>
      refine ⟨rc, ?_, hb, hf, hm, by simp⟩
      rw [prune_of_lookup_none _ _ (by rw [hlk, h])]
    | some w =>
      refine ⟨_, rfl, bst_prune hb hf, fits_prune hf, ?_, by simp⟩
      intro k v
      rw [entries_prune hb hf, List.mem_filter]
      by_cases hk : k = name
      · simp [hk]
      · simp [hk, hm k v]
  | query name res len =>
    obtain ⟨_, hl⟩ := hc
    simp only [db_call, sentinel_query, hlk, spec_call]
    refine ⟨rc, rfl, hb, hf, ?_, ?_⟩
    · cases h : m name <;> exact hm
    · cases h : m name with
      | none =>
        simp only [Option.getD]
        rw [snprintf_whole _ _ hl (by decide)]
      | some w =>
        simp only [Option.getD]
        rw [snprintf_whole _ _ hl (fits_of_mem_entries hf ((hm name w).2 h)).2]

theorem run_simulation (cs : List call) : ∀ (hv : CStr) (rc : node_t) (m : fmap), bst rc → fits rc →
    (∀ k v, (k, v) ∈ entries rc ↔ m k = some v) → (∀ c ∈ cs, call_ok c) →
    ∃ rc2, (db_run (.node [] hv .null rc) cs).1 = .node [] hv .null rc2 ∧ bst rc2 ∧ fits rc2 ∧
      (∀ k v, (k, v) ∈ entries rc2 ↔ (spec_run m cs).1 k = some v) ∧
      (db_run (.node [] hv .null rc) cs).2 = (spec_run m cs).2 := by
  induction cs with
  | nil =>
    intro hv rc m hb hf hm _
    exact ⟨rc, rfl, hb, hf, hm, rfl⟩
  | cons c cs ih =>
    intro hv rc m hb hf hm hok
    obtain ⟨rc1, e1, hb1, hf1, hm1, ho1⟩ :=
      call_simulation hv hb hf hm c (hok c (List.mem_cons_self _ _))
    obtain ⟨rc2, e2, hb2, hf2, hm2, ho2⟩ :=
      ih hv rc1 _ hb1 hf1 hm1 (fun c2 h2 => hok c2 (List.mem_cons_of_mem _ h2))
    refine ⟨rc2, ?_, hb2, hf2, ?_, ?_⟩
    · simp only [db_run, e1, e2]
    · simpa only [spec_run] using hm2
    · simp only [db_run, spec_run, e1, ho1, ho2]

/-- C1: run sequentially from the empty store, over any sequence of calls whose names and
values have at most 255 bytes, `db_add`, `db_remove` and `db_query` hand back exactly what
the finite map with insert-if-absent hands back (1 from `db_add` iff the key was absent, 1
from `db_remove` iff it was present, the stored value or "not found" from `db_query`), and
the final store holds each key of the final map once, with the value the map gives it. -/
theorem db_run_refines_finite_map (cs : List call) (hok : ∀ c ∈ cs, call_ok c) :
    (db_run head0 cs).2 = (spec_run fmap_empty cs).2 ∧
      (keys (db_run head0 cs).1).Nodup ∧
      ∀ k v, (k, v) ∈ contents (db_run head0 cs).1 ↔ (spec_run fmap_empty cs).1 k = some v := by
  obtain ⟨rc2, e2, hb2, _, hm2, ho2⟩ :=
    run_simulation cs [] .null fmap_empty trivial trivial
      (by intro k v; simp [fmap_empty]) hok
  have e : db_run head0 cs = db_run (.node [] [] .null .null) cs := rfl
  rw [e]
  refine ⟨ho2, ?_, ?_⟩
  · rw [e2]
    have : keys (.node [] [] .null rc2) = names rc2 := by
      simp [keys, contents, names, node_t.lchild, node_t.rchild]
    rw [this]
    exact sorted_nodup ((bst_iff_sorted rc2).1 hb2)
  · rw [e2]
    simpa [contents, node_t.lchild, node_t.rchild] using hm2


/-- The refinement at a concrete sequence: insert, insert again, query, remove, remove again, query. -/
theorem db_run_refines_finite_map_witness :
    (∀ c ∈ [call.add [97] [49], .add [97] [50], .query [97] [] 256, .remove [97],
        .remove [97], .query [97] [] 256], call_ok c) ∧
      (db_run head0 [call.add [97] [49], .add [97] [50], .query [97] [] 256, .remove [97],
        .remove [97], .query [97] [] 256]).2 =
        [.code 1, .code 0, .text [49], .code 1, .code 0, .text not_found] ∧
      (db_run head0 [call.add [97] [49], .add [97] [50], .query [97] [] 256, .remove [97],
        .remove [97], .query [97] [] 256]).2 =
        (spec_run fmap_empty [call.add [97] [49], .add [97] [50], .query [97] [] 256,
          .remove [97], .remove [97], .query [97] [] 256]).2 :=
  ⟨by simp [call_ok, strlen, MAXLEN], by decide,
    (db_run_refines_finite_map _ (by simp [call_ok, strlen, MAXLEN])).1⟩

/-! ### Removal and repeated insertion -/

theorem names_sentinel (hv : CStr) (rc : node_t) : keys (.node [] hv .null rc) = names rc := by
  simp [keys, contents, names, node_t.lchild, node_t.rchild]

theorem contents_sentinel (hv : CStr) (rc : node_t) :
    contents (.node [] hv .null rc) = entries rc := by
  simp [contents, node_t.lchild, node_t.rchild]

/-- C2: in a BST-ordered store, removing a present key (whatever the number of children of
its node) returns 1, after which a query of that key yields "not found" and a query of any
other key yields what it yielded before. -/
theorem db_remove_present (head : node_t) (name : CStr) (ho : ordered_store head)
    (hf : fits head) (hp : name ∈ keys head) :
    (db_remove head name).2 = 1 ∧
      (∀ res len, db_query (db_remove head name).1 name res len = snprintf res len not_found) ∧
      (∀ other res len, other ≠ name →
        db_query (db_remove head name).1 other res len = db_query head other res len) := by
  obtain ⟨hv, rc, rfl, hb⟩ := ordered_store_cases ho
  have hfr : fits rc := hf.2.2.2
  rw [names_sentinel] at hp
  simp only [sentinel_remove, sentinel_query]
  refine ⟨by simp [(lookup_isSome_iff hb).2 hp], ?_, ?_⟩
  · intro res len
    rw [lookup_eq_none_of_not_mem]
    · rfl
    · rw [names_prune hb hfr]; simp
  · intro other res len hne
    have e : lookup other (prune name rc) = lookup other rc := by
      apply Option.ext
      intro v
      simp only [Option.mem_def, lookup_eq_some_iff (bst_prune hb hfr), lookup_eq_some_iff hb,
        entries_prune hb hfr, List.mem_filter]
      simp [hne]
    rw [e]

/-- On any tree at all, when `search` returns a target `db_add` returns 0 and hands the
tree back as it was. -/
theorem db_add_of_search_some (head : node_t) (name value : CStr)
    (h : (search name head).1 ≠ none) : db_add head name value = (head, 0) := by
  rw [db_add]
  rcases hs : search name head with ⟨res, pp⟩
  cases res with
  | none => rw [hs] at h; exact absurd rfl h
  | some t => rfl

theorem db_add_of_search_none (head : node_t) (name value : CStr)
    (h : (search name head).1 = none) : (db_add head name value).2 = 1 := by
  rw [db_add]
  rcases hs : search name head with ⟨res, pp⟩
  rw [hs] at h
  simp only at h
  subst h
  simp only
  split_ifs <;> rfl

theorem search_of_mem_keys (hv : CStr) {rc : node_t} {name : CStr} (hb : bst rc)
    (hp : name ∈ names rc) : (search name (.node [] hv .null rc)).1 ≠ none := by
  intro h
  have h1 := db_add_of_search_none _ name [] h
  rw [sentinel_add] at h1
  simp [(lookup_isSome_iff hb).2 hp] at h1

/-- C3: in a BST-ordered store, `db_add` of a key already present finds it, returns 0 and
leaves the whole tree as it was, so a query of the key still yields the value stored
first, whatever the value offered by the second insert. -/
theorem db_add_present (head : node_t) (name value : CStr) (ho : ordered_store head)
    (hp : name ∈ keys head) :
    (search name head).1 ≠ none ∧ db_add head name value = (head, 0) ∧
      ∀ v, (name, v) ∈ contents head → ∀ res len,
        db_query (db_add head name value).1 name res len = snprintf res len v := by
  obtain ⟨hv, rc, rfl, hb⟩ := ordered_store_cases ho
  rw [names_sentinel] at hp
  have hs := search_of_mem_keys hv hb hp
  have e := db_add_of_search_some _ name value hs
  refine ⟨hs, e, ?_⟩
  intro v hv2 res len
  rw [contents_sentinel] at hv2
  rw [e, sentinel_query, lookup_of_mem hb hv2]
  rfl

/-- C4: in a BST-ordered store, removing a key whose node has both a left and a right child
leaves an in-order traversal that is strictly sorted and is the previous traversal without
that key's entry, so every other entry is kept, with its value, and no name occurs twice. -/
theorem db_remove_two_children (head : node_t) (name : CStr) (d : ptr)
    (ho : ordered_store head) (hf : fits head) (hd : (search name head).1 = some d)
    (hl : (deref head d).lchild ≠ .null) (hr : (deref head d).rchild ≠ .null) :
    (keys (db_remove head name).1).Pairwise (fun a b => strcmp a b < 0) ∧
      contents (db_remove head name).1 =
        (contents head).filter (fun e => decide (e.1 ≠ name)) ∧
      (keys (db_remove head name).1).Nodup := by
  obtain ⟨hv, rc, rfl, hb⟩ := ordered_store_cases ho
  have hfr : fits rc := hf.2.2.2
  have hc : contents (db_remove (.node [] hv .null rc) name).1 =
      (contents (.node [] hv .null rc)).filter (fun e => decide (e.1 ≠ name)) := by
    rw [sentinel_remove, contents_sentinel, contents_sentinel, entries_prune hb hfr]
  have hk : (keys (db_remove (.node [] hv .null rc) name).1).Pairwise
      (fun a b => strcmp a b < 0) := by
    rw [sentinel_remove, names_sentinel]
    exact (bst_iff_sorted _).1 (bst_prune hb hfr)
  exact ⟨hk, hc, sorted_nodup hk⟩


/-- The scenario alice/30, bob/25, carol/40, then delete bob: alice and carol are left and bob is not found. -/
theorem db_remove_present_witness :
    ordered_store store_abc ∧ fits store_abc ∧ bob ∈ keys store_abc ∧
      contents (db_remove store_abc bob).1 = [(alice, [51, 48]), (carol, [52, 48])] ∧
      (db_remove store_abc bob).2 = 1 ∧
      db_query (db_remove store_abc bob).1 bob [] 256 = not_found :=
  ⟨by decide, by decide, by decide, by decide,
    (db_remove_present store_abc bob (by decide) (by decide) (by decide)).1,
    (db_remove_present store_abc bob (by decide) (by decide) (by decide)).2.1 [] 256⟩

/-- The scenario of a second insert of alice with another value: the first value stays. -/
theorem db_add_present_witness :
    ordered_store (db_add head0 alice [51, 48]).1 ∧ alice ∈ keys (db_add head0 alice [51, 48]).1 ∧
      db_add (db_add head0 alice [51, 48]).1 alice [52, 48] =
        ((db_add head0 alice [51, 48]).1, 0) ∧
      db_query (db_add (db_add head0 alice [51, 48]).1 alice [52, 48]).1 alice [] 256 =
        [51, 48] :=
  ⟨by decide, by decide,
    (db_add_present (db_add head0 alice [51, 48]).1 alice [52, 48] (by decide)
      (by decide)).2.1,
    (db_add_present (db_add head0 alice [51, 48]).1 alice [52, 48] (by decide)
      (by decide)).2.2 [51, 48] (by decide) [] 256⟩

/-- The scenario m, b, t, o, then delete m, whose node has two children. -/
theorem db_remove_two_children_witness :
    ordered_store store_mbto ∧ fits store_mbto ∧ (search [109] store_mbto).1 = some [.r] ∧
      (deref store_mbto [.r]).lchild ≠ .null ∧ (deref store_mbto [.r]).rchild ≠ .null ∧
      contents store_mbto = [([98], [50]), ([109], [49]), ([111], [52]), ([116], [51])] ∧
      contents (db_remove store_mbto [109]).1 = [([98], [50]), ([111], [52]), ([116], [51])] ∧
      (keys (db_remove store_mbto [109]).1).Pairwise (fun a b => strcmp a b < 0) :=
  ⟨by decide, by decide, by decide, by decide, by decide, by decide, by decide,
    (db_remove_two_children store_mbto [109] [.r] (by decide) (by decide) (by decide)
      (by decide) (by decide)).1⟩


/-! ### Reachable stores -/

theorem reachable_shape {head : node_t} (h : reachable head) :
    ∃ hv rc, head = .node [] hv .null rc ∧ bst rc ∧ fits rc := by
  induction h with
  | init => exact ⟨[], .null, rfl, trivial, trivial⟩
  | add name value _ hn hvl ih =>
    obtain ⟨hv, rc, rfl, hb, hf⟩ := ih
    obtain ⟨rc2, e, hb2, hf2, _, _⟩ :=
      call_simulation hv hb hf (fun k v => (lookup_eq_some_iff hb).symm) (.add name value)
        ⟨hn, hvl⟩
    exact ⟨hv, rc2, e, hb2, hf2⟩
  | remove name _ hn ih =>
    obtain ⟨hv, rc, rfl, hb, hf⟩ := ih
    obtain ⟨rc2, e, hb2, hf2, _, _⟩ :=
      call_simulation hv hb hf (fun k v => (lookup_eq_some_iff hb).symm) (.remove name) hn
    exact ⟨hv, rc2, e, hb2, hf2⟩

/-- C5: every store reachable from the empty store by `db_add` and `db_remove` calls with
names and values of at most 255 bytes keeps all real nodes in a binary search tree under
`strcmp` (at each node the names to the left are strictly smaller and those to the
right strictly greater), and no two nodes hold the same name. -/
theorem reachable_is_bst (head : node_t) (h : reachable head) :
    ordered_store head ∧ bst head.rchild ∧ (keys head).Nodup := by
  obtain ⟨hv, rc, rfl, hb, _⟩ := reachable_shape h
  refine ⟨ordered_store_node hb, hb, ?_⟩
  rw [names_sentinel]
  exact sorted_nodup ((bst_iff_sorted rc).1 hb)

/-- A store reached by two inserts and a removal. -/
theorem reachable_is_bst_witness :
    reachable (db_remove (db_add (db_add head0 bob [50, 53]).1 alice [51, 48]).1 bob).1 ∧
      contents (db_remove (db_add (db_add head0 bob [50, 53]).1 alice [51, 48]).1 bob).1 =
        [(alice, [51, 48])] ∧
      bst (db_remove (db_add (db_add head0 bob [50, 53]).1 alice [51, 48]).1 bob).1.rchild :=
  ⟨.remove bob (.add alice [51, 48] (.add bob [50, 53] .init (by decide) (by decide))
      (by decide) (by decide)) (by decide),
    by decide,
    (reachable_is_bst _ (.remove bob (.add alice [51, 48] (.add bob [50, 53] .init (by decide)
      (by decide)) (by decide) (by decide)) (by decide))).2.1⟩

/-- C6 fails as stated: after the inserts `("m", "1")`, `("b", "2")`, `("t", "3")`,
`("o", "4")` and `db_remove("m")`, it is not the case that a query of `"o"` reports
"not found" and a query of `"m"` finds `"4"`. -/
theorem promoted_successor_claim_fails :
    ¬ (db_query (db_remove store_mbto [109]).1 [111] [] 256 = not_found ∧
      db_query (db_remove store_mbto [109]).1 [109] [] 256 = [52]) := by
  decide

/-- C6 as amended: after the same calls, the removed key `"m"` is reported "not found" and
the promoted key `"o"` is still found, with its own value `"4"`, in the node that held
`"m"`. -/
theorem promoted_successor_queries :
    (db_remove store_mbto [109]).2 = 1 ∧
      db_query (db_remove store_mbto [109]).1 [109] [] 256 = not_found ∧
      db_query (db_remove store_mbto [109]).1 [111] [] 256 = [52] ∧
      (db_remove store_mbto [109]).1 =
        .node [] [] .null (.node [111] [52] (.node [98] [50] .null .null)
          (.node [116] [51] .null .null)) := by
  decide


/-! ### The length limit -/

theorem node_constructor_oversize (name value : CStr) (lc rc : node_t)
    (h : strlen name > MAXLEN ∨ strlen value > MAXLEN) :
    node_constructor name value lc rc = .null := by
  simp only [node_constructor, h, if_true]

theorem db_add_oversize (hv : CStr) (lc rc : node_t) (name value : CStr)
    (h : strlen name > MAXLEN ∨ strlen value > MAXLEN) (ha : lookup name rc = none) :
    db_add (.node [] hv lc rc) name value = (.node [] hv lc rc, 1) := by
  rw [sentinel_add, node_constructor_oversize _ _ _ _ h, graft_null_of_lookup_none _ _ ha, ha]
  rfl

theorem strlen_replicate (n a : Nat) : strlen (List.replicate n a) = n :=
  List.length_replicate n a

/-- C7, at the failing input: on the empty store, `db_add("k", v)` with a value `v` of 257
bytes gets `NULL` from `node_constructor`, leaves the tree unchanged, and still returns 1,
the result that means Inserted. -/
theorem db_add_oversize_returns_one :
    node_constructor [107] (List.replicate 257 97) .null .null = .null ∧
      db_add head0 [107] (List.replicate 257 97) = (head0, 1) :=
  ⟨node_constructor_oversize _ _ _ _ (Or.inr (by rw [strlen_replicate]; decide)),
    db_add_oversize [] .null .null _ _ (Or.inr (by rw [strlen_replicate]; decide)) rfl⟩

theorem lookup_leaf_ne {name n v : CStr} (h : name ≠ n) :
    lookup name (.node n v .null .null) = none := by
  have h0 : ¬ strcmp name n = 0 := fun e => h ((strcmp_eq_zero_iff _ _).1 e)
  simp only [lookup, h0, if_false]
  split_ifs <;> rfl

theorem node_constructor_256 (a : Nat) (value : CStr) (hv : strlen value < MAXLEN) :
    node_constructor (List.replicate 256 a) value .null .null =
      .node (List.replicate 255 a) value .null .null := by
  have h : ¬ (strlen (List.replicate 256 a) > MAXLEN ∨ strlen value > MAXLEN) := by
    rw [strlen_replicate]
    have : ¬ 256 > MAXLEN := by decide
    omega
  have e : snprintf [] MAXLEN (List.replicate 256 a) = List.replicate 255 a := by
    have h0 : ¬ MAXLEN = 0 := by decide
    rw [snprintf, if_neg h0, List.take_replicate]
    rfl
  simp only [node_constructor, h, if_false, e, snprintf_short _ _ hv]

/-- C8, at the failing input: on the empty store, `db_add` of a name of exactly 256 bytes
returns 1 but stores only the first 255 bytes of the name, so a following `db_query` of
the name, into a buffer of 512 bytes, yields "not found" instead of the value. -/
theorem db_add_256_truncates :
    db_add head0 (List.replicate 256 97) [118] =
        (.node [] [] .null (.node (List.replicate 255 97) [118] .null .null), 1) ∧
      List.replicate 255 97 ≠ List.replicate 256 97 ∧
      db_query (db_add head0 (List.replicate 256 97) [118]).1 (List.replicate 256 97) [] 512 =
        not_found := by
  have hne : List.replicate 256 97 ≠ List.replicate 255 97 := by
    intro h
    have h2 := congrArg List.length h
    rw [List.length_replicate, List.length_replicate] at h2
    exact absurd h2 (by decide)
  have e : db_add head0 (List.replicate 256 97) [118] =
      (.node [] [] .null (.node (List.replicate 255 97) [118] .null .null), 1) := by
    rw [head0, sentinel_add, node_constructor_256 _ _ (by decide)]
    rfl
  refine ⟨e, fun h => hne h.symm, ?_⟩
  rw [e, sentinel_query, lookup_leaf_ne hne]
  decide


end DB

namespace Server

theorem delete_all_loop_eq (h : client_t) (l : List client_t) :
    delete_all_loop h l = List.replicate l.length h.thread := by
  induction l with
  | nil => rfl
  | cons c l ih => simp [delete_all_loop, ih, List.replicate_succ]

/-- C9, at the failing input: with two clients registered, on threads 1 and 2,
`delete_all` hands thread 1, the thread of the list head, to `pthread_cancel` twice and
never thread 2, so the threads cancelled are not the threads of the list. -/
theorem delete_all_cancels_head_only :
    delete_all [{ thread := 1, cxstr := 10 }, { thread := 2, cxstr := 20 }] = [1, 1] ∧
      ¬ List.Perm (delete_all [{ thread := 1, cxstr := 10 }, { thread := 2, cxstr := 20 }])
        (List.map client_t.thread [{ thread := 1, cxstr := 10 }, { thread := 2, cxstr := 20 }]) := by
  decide

/-- C10 fails as stated: there is a run in which `client_control_stop` has completed, no
`client_control_release` follows, and yet a client executes `interpret_command`: the
client had returned from `client_control_wait` just before the stop. -/
theorem stop_does_not_hold_all_commands :
    ¬ ∀ (before after : List event),
        (steps gate_init (before ++ .client_control_stop :: after)).isSome →
        event.client_control_release ∉ after → ∀ i, event.interpret_command i ∉ after := by
  intro h
  exact h [.comm_serve 0, .client_control_wait 0] [.interpret_command 0] (by decide)
    (by decide) 0 (by decide)

theorem step_stopped {s s2 : gate_state} {e : event} (hs : s.stopped = 1)
    (he : step s e = some s2) (hr : e ≠ .client_control_release) :
    s2.stopped = 1 ∧ (∀ j, e ≠ .client_control_wait j) ∧
      ∀ i, s.place_of i ≠ .command → e ≠ .interpret_command i ∧ s2.place_of i ≠ .command := by
  cases e with
  | client_control_stop =>
    simp only [step, Option.some.injEq] at he
    subst he
    exact ⟨rfl, by simp, fun i hi => ⟨by simp, hi⟩⟩
  | client_control_release => exact absurd rfl hr
  | comm_serve k =>
    simp only [step] at he
    split_ifs at he with hk
    simp only [Option.some.injEq] at he
    subst he
    refine ⟨hs, by simp, fun i hi => ⟨by simp, ?_⟩⟩
    simp only [move]
    split_ifs
    · simp
    · exact hi
  | client_control_wait k =>
    simp only [step] at he
    split_ifs at he with hk
    exact absurd hs hk.2
  | interpret_command k =>
    simp only [step] at he
    split_ifs at he with hk
    simp only [Option.some.injEq] at he
    subst he
    refine ⟨hs, by simp, fun i hi => ⟨?_, ?_⟩⟩
    · intro e
      simp only [event.interpret_command.injEq] at e
      subst e
      exact hi hk
    · simp only [move]
      split_ifs
      · simp
      · exact hi

/-- C10 as amended: from any state in which `client_control_stop` has completed, along any
run without `client_control_release`, no call of `client_control_wait` returns, and a
client that had not returned from `client_control_wait` when the stop completed (also one
whose command was already read) executes no `interpret_command`. -/
theorem stop_holds_clients_at_gate (s : gate_state) (es : List event) (hs : s.stopped = 1)
    (hrun : (steps s es).isSome) (hrel : event.client_control_release ∉ es) :
    (∀ j, event.client_control_wait j ∉ es) ∧
      ∀ i, s.place_of i ≠ .command → event.interpret_command i ∉ es := by
  induction es generalizing s with
  | nil => simp
  | cons e es ih =>
    simp only [steps] at hrun
    cases h : step s e with
    | none => rw [h] at hrun; simp at hrun
    | some s2 =>
      rw [h] at hrun
      have hr : e ≠ .client_control_release := fun e0 => hrel (by simp [e0])
      obtain ⟨h1, h2, h3⟩ := step_stopped hs h hr
      obtain ⟨i1, i2⟩ := ih s2 h1 hrun (fun hm => hrel (List.mem_cons_of_mem _ hm))
      constructor
      · intro j hj
        rcases List.mem_cons.1 hj with hj | hj
        · exact h2 j hj.symm
        · exact i1 j hj
      · intro i hi hj
        rcases List.mem_cons.1 hj with hj | hj
        · exact (h3 i hi).1 hj.symm
        · exact i2 i (h3 i hi).2 hj

/-- A stopped gate with client 0 past the gate and client 1 held at it. -/
theorem stop_holds_clients_at_gate_witness :
    (steps { stopped := 1, place_of := fun j => if j = 0 then .command else .gate }
        [.interpret_command 0, .comm_serve 0, .client_control_stop]).isSome ∧
      event.interpret_command 1 ∉
        [event.interpret_command 0, .comm_serve 0, .client_control_stop] :=
  ⟨by decide,
    (stop_holds_clients_at_gate
      { stopped := 1, place_of := fun j => if j = 0 then .command else .gate }
      [.interpret_command 0, .comm_serve 0, .client_control_stop] rfl (by decide)
      (by decide)).2 1 (by decide)⟩

end Server

namespace DB

/-! ### Removal: the absent key and the shape of a two-children removal -/

/-- C15: in a BST-ordered store (the empty store included), `db_remove` of a name that is
not present returns 0 and hands the tree back unchanged, and `db_query` of that name
yields "not found". -/
theorem db_remove_absent (head : node_t) (name : CStr) (ho : ordered_store head)
    (ha : name ∉ keys head) :
    db_remove head name = (head, 0) ∧
      ∀ res len, db_query head name res len = snprintf res len not_found := by
  obtain ⟨hv, rc, rfl, _⟩ := ordered_store_cases ho
  rw [names_sentinel] at ha
  have hn := lookup_eq_none_of_not_mem name rc ha
  refine ⟨?_, ?_⟩
  · rw [sentinel_remove, prune_of_lookup_none _ _ hn, hn]
    rfl
  · intro res len
    rw [sentinel_query, hn]
    rfl

/-- The empty store, where the descent ends at the null child of the sentinel, and a store
with three names, queried for a fourth. -/
theorem db_remove_absent_witness :
    ordered_store head0 ∧ bob ∉ keys head0 ∧ db_remove head0 bob = (head0, 0) ∧
      db_query head0 bob [] 256 = not_found ∧
      (search bob head0).2 = [] ∧
      ordered_store store_abc ∧ [100] ∉ keys store_abc ∧
      db_remove store_abc [100] = (store_abc, 0) :=
  ⟨by decide, by decide, (db_remove_absent head0 bob (by decide) (by decide)).1,
    (db_remove_absent head0 bob (by decide) (by decide)).2 [] 256, by decide, by decide,
    by decide, (db_remove_absent store_abc [100] (by decide) (by decide)).1⟩

theorem deref_nil (t : node_t) : deref t [] = t := by
  cases t <;> rfl

theorem deref_append (t : node_t) (p q : ptr) : deref t (p ++ q) = deref (deref t p) q := by
  induction p generalizing t with
  | nil => rw [List.nil_append, deref_nil]
  | cons d p ih =>
    cases t with
    | null => cases d <;> cases q <;> simp [deref]
    | node n v lc rc => cases d <;> simp [deref, ih]

theorem assign_nil (t x : node_t) : assign t [] x = x := by
  cases t <;> rfl

theorem set_strings_null (p : ptr) (a b : CStr) : set_strings .null p a b = .null := by
  cases p <;> rfl

/-- Writing the strings of the node at `d` and then storing through a slot below it is one
replacement of the subtree at `d`. -/
theorem assign_set_strings (t : node_t) (d q : ptr) (a b : CStr) (x : node_t) (k : link)
    (h : deref t d ≠ .null) :
    assign (set_strings t d a b) (d ++ k :: q) x =
      assign t d (match k with
        | .l => .node a b (assign (deref t d).lchild q x) (deref t d).rchild
        | .r => .node a b (deref t d).lchild (assign (deref t d).rchild q x)) := by
  induction d generalizing t with
  | nil =>
    cases t with
    | null => rw [deref_nil] at h; exact absurd rfl h
    | node n v lc rc =>
      cases k <;> simp [set_strings, assign, deref, node_t.lchild, node_t.rchild]
  | cons e d ih =>
    cases t with
    | null => cases e <;> simp [deref] at h
    | node n v lc rc =>
      cases e
      · simp only [deref] at h
        exact congrArg (fun z => node_t.node n v z rc) (ih lc h)
      · simp only [deref] at h
        exact congrArg (fun z => node_t.node n v lc z) (ih rc h)

theorem deref_assign (t x : node_t) (d : ptr) (h : deref t d ≠ .null) :
    deref (assign t d x) d = x := by
  induction d generalizing t with
  | nil => rw [assign_nil, deref_nil]
  | cons e d ih =>
    cases t with
    | null => cases e <;> simp [deref] at h
    | node n v lc rc =>
      cases e
      · simp only [deref] at h
        simpa [assign, deref] using ih lc h
      · simp only [deref] at h
        simpa [assign, deref] using ih rc h

theorem leftmost_no_lchild (t : node_t) : (deref t (leftmost t)).lchild = .null := by
  induction t with
  | null => rfl
  | node n v lc rc ihl _ =>
    cases lc with
    | null => simp [leftmost, deref, node_t.lchild]
    | node ln lv ll lr =>
      rw [leftmost]
      simpa [deref] using ihl

theorem leftmost_ne_null (t : node_t) (h : t ≠ .null) : deref t (leftmost t) ≠ .null := by
  induction t with
  | null => exact absurd rfl h
  | node n v lc rc ihl _ =>
    cases lc with
    | null => simp [leftmost, deref]
    | node ln lv ll lr =>
      rw [leftmost]
      simpa [deref] using ihl (by simp)



/-- C16: when `db_remove` deletes a node `T` with both children, found at pointer `d`, the
tree changes only below `d`: `T` stays in its slot with its left subtree, its name and
value become those of the left-most node `S` of its former right subtree (a node without
left child), and in that right subtree the slot that held `S` now holds the former right
child of `S`. -/
theorem db_remove_promotes_successor (head : node_t) (name : CStr) (d : ptr)
    (hf : fits head) (hd : (search name head).1 = some d)
    (hl : (deref head d).lchild ≠ .null) (hr : (deref head d).rchild ≠ .null) :
    (deref (deref head d).rchild (leftmost (deref head d).rchild)) ≠ .null ∧
      (deref (deref head d).rchild (leftmost (deref head d).rchild)).lchild = .null ∧
      db_remove head name =
        (assign head d
          (.node (deref (deref head d).rchild (leftmost (deref head d).rchild)).name
            (deref (deref head d).rchild (leftmost (deref head d).rchild)).value
            (deref head d).lchild
            (assign (deref head d).rchild (leftmost (deref head d).rchild)
              (deref (deref head d).rchild (leftmost (deref head d).rchild)).rchild)), 1) ∧
      deref (db_remove head name).1 d =
        .node (deref (deref head d).rchild (leftmost (deref head d).rchild)).name
          (deref (deref head d).rchild (leftmost (deref head d).rchild)).value
          (deref head d).lchild
          (assign (deref head d).rchild (leftmost (deref head d).rchild)
            (deref (deref head d).rchild (leftmost (deref head d).rchild)).rchild) := by
  have hT : deref head d ≠ .null := by
    intro h; rw [h] at hl; exact hl rfl
  suffices h : db_remove head name =
      (assign head d
        (.node (deref (deref head d).rchild (leftmost (deref head d).rchild)).name
          (deref (deref head d).rchild (leftmost (deref head d).rchild)).value
          (deref head d).lchild
          (assign (deref head d).rchild (leftmost (deref head d).rchild)
            (deref (deref head d).rchild (leftmost (deref head d).rchild)).rchild)), 1) by
    refine ⟨leftmost_ne_null _ hr, leftmost_no_lchild _, h, ?_⟩
    rw [h]
    exact deref_assign _ _ _ hT
  have hS : deref head (d ++ link.r :: leftmost (deref head d).rchild) =
      deref (deref head d).rchild (leftmost (deref head d).rchild) := by
    rw [deref_append]
    cases hT2 : deref head d with
    | null => exact absurd hT2 hT
    | node n v lc rc => simp [deref, node_t.rchild]
  have hs := fits_strings (fits_deref hf (d ++ link.r :: leftmost (deref head d).rchild))
  rw [hS] at hs
  rw [db_remove]
  rcases hsr : search name head with ⟨res, pp⟩
  rw [hsr] at hd
  simp only at hd
  subst hd
  simp only [hl, hr, if_false, hS, snprintf_short _ _ hs.1, snprintf_short _ _ hs.2]
  rw [assign_set_strings _ _ _ _ _ _ _ hT]


/-- The scenario m, b, t, o, then delete m: the node that held m holds o with value 4, its
left child is b, its right child is t, and t has no left child any more. -/
theorem db_remove_promotes_successor_witness :
    fits store_mbto ∧ (search [109] store_mbto).1 = some [.r] ∧
      (deref store_mbto [.r]).lchild ≠ .null ∧ (deref store_mbto [.r]).rchild ≠ .null ∧
      deref store_mbto [.r] =
        .node [109] [49] (.node [98] [50] .null .null)
          (.node [116] [51] (.node [111] [52] .null .null) .null) ∧
      leftmost (deref store_mbto [.r]).rchild = [.l] ∧
      deref (db_remove store_mbto [109]).1 [.r] =
        .node [111] [52] (.node [98] [50] .null .null) (.node [116] [51] .null .null) :=
  ⟨by decide, by decide, by decide, by decide, by decide, by decide,
    (db_remove_promotes_successor store_mbto [109] [.r] (by decide) (by decide) (by decide)
      (by decide)).2.2.2.trans (by decide)⟩

/-! ### Scanning the arguments of a command -/

theorem takeWhile_token (n rest : CStr) (hn : ∀ b ∈ n, isspace b = false)
    (hr : ∀ b r, rest = b :: r → isspace b = true) :
    (n ++ rest).takeWhile (fun b => !isspace b) = n := by
  induction n with
  | nil =>
    cases rest with
    | nil => rfl
    | cons b r => simp [List.takeWhile, hr b r rfl]
  | cons a n ih =>
    have ha : isspace a = false := hn a (List.mem_cons_self _ _)
    simp only [List.cons_append, List.takeWhile, ha, Bool.not_false]
    exact congrArg (fun z => a :: z) (ih (fun b hb => hn b (List.mem_cons_of_mem _ hb)))

theorem scan_s_token {n : CStr} (rest : CStr) (hn : token n)
    (hr : ∀ b r, rest = b :: r → isspace b = true) : scan_s (n ++ rest) = some (n, rest) := by
  obtain ⟨h1, h2, h3⟩ := hn
  cases n with
  | nil => exact absurd rfl h1
  | cons a n =>
    have ha : isspace a = false := h2 a (List.mem_cons_self _ _)
    have hd : ((a :: n) ++ rest).dropWhile isspace = (a :: n) ++ rest := by
      simp [List.dropWhile, ha]
    have ht := takeWhile_token (a :: n) rest h2 hr
    have hk : ((a :: n).take 255) = a :: n := by
      apply List.take_of_length_le
      simp only [strlen, MAXLEN] at h3
      omega
    simp only [scan_s, hd, ht, hk]
    simp

theorem scan_s_blank {w : CStr} (hw : blank w) : scan_s w = none := by
  have hd : w.dropWhile isspace = [] := by
    induction w with
    | nil => rfl
    | cons b w ih =>
      have hb : isspace b = true := hw b (List.mem_cons_self _ _)
      simp only [List.dropWhile, hb]
      exact ih (fun c hc => hw c (List.mem_cons_of_mem _ hc))
  simp [scan_s, hd]

theorem scan_s_skip {w : CStr} (x : CStr) (hw : blank w) : scan_s (w ++ x) = scan_s x := by
  have hd : (w ++ x).dropWhile isspace = x.dropWhile isspace := by
    induction w with
    | nil => rfl
    | cons b w ih =>
      have hb : isspace b = true := hw b (List.mem_cons_self _ _)
      simp only [List.cons_append, List.dropWhile, hb]
      exact ih (fun c hc => hw c (List.mem_cons_of_mem _ hc))
  simp only [scan_s, hd]

theorem sscanf_1_token {n : CStr} (hn : token n) : sscanf_1 n = (1, n) := by
  have h := scan_s_token [] hn (fun b r e => by cases e)
  rw [List.append_nil] at h
  simp [sscanf_1, h]

theorem sscanf_2_tokens {n v : CStr} (hn : token n) (hv : token v) :
    sscanf_2 (n ++ 32 :: v) = (2, n, v) := by
  have h1 := scan_s_token (32 :: v) hn (fun b r e => by
    simp only [List.cons.injEq] at e
    rw [← e.1]; rfl)
  have h2 : scan_s (32 :: v) = some (v, []) := by
    have h3 := scan_s_skip v (w := [32]) (by intro b hb; simp at hb; subst hb; rfl)
    have h4 := scan_s_token [] hv (fun b r e => by cases e)
    rw [List.append_nil] at h4
    rw [← h4]
    exact h3
  simp [sscanf_2, h1, h2]


theorem dropWhile_isspace_head (l : CStr) (a : Nat) (s : CStr)
    (h : l.dropWhile isspace = a :: s) : isspace a = false := by
  induction l with
  | nil => simp at h
  | cons b l ih =>
    by_cases hb : isspace b = true
    · rw [List.dropWhile_cons_of_pos hb] at h
      exact ih h
    · rw [List.dropWhile_cons_of_neg hb] at h
      simp only [List.cons.injEq] at h
      rw [← h.1]
      simpa using hb

theorem scan_s_some_token {input t rest : CStr} (h : scan_s input = some (t, rest)) :
    token t := by
  simp only [scan_s] at h
  split_ifs at h with hs
  simp only [Option.some.injEq, Prod.mk.injEq] at h
  obtain ⟨ht, _⟩ := h
  cases hd : input.dropWhile isspace with
  | nil => exact absurd hd hs
  | cons a s =>
    have ha := dropWhile_isspace_head input a s hd
    rw [hd] at ht
    refine ⟨?_, ?_, ?_⟩
    · rw [← ht]
      simp [List.takeWhile, ha]
    · intro b hb
      rw [← ht] at hb
      have := List.mem_takeWhile_imp (List.mem_of_mem_take hb)
      simpa using this
    · rw [← ht]
      simp only [strlen, MAXLEN, List.length_take]
      omega

theorem sscanf_1_some_token {input : CStr} (h : ¬ (sscanf_1 input).1 < 1) :
    token (sscanf_1 input).2 := by
  simp only [sscanf_1] at h ⊢
  cases hs : scan_s input with
  | none => rw [hs] at h; simp at h
  | some r =>
    obtain ⟨t, rest⟩ := r
    exact scan_s_some_token hs

theorem sscanf_2_some_tokens {input : CStr} (h : ¬ (sscanf_2 input).1 < 2) :
    token (sscanf_2 input).2.1 ∧ token (sscanf_2 input).2.2 := by
  simp only [sscanf_2] at h ⊢
  cases hs : scan_s input with
  | none => rw [hs] at h; simp at h
  | some r =>
    obtain ⟨t, rest⟩ := r
    rw [hs] at h
    simp only at h ⊢
    cases hs2 : scan_s rest with
    | none => rw [hs2] at h; simp at h
    | some r2 =>
      obtain ⟨v, rest2⟩ := r2
      exact ⟨scan_s_some_token hs, scan_s_some_token hs2⟩


/-! ### The commands `q`, `a` and `d` -/

theorem strlen_cons_token {n : CStr} (c : Nat) (rest : CStr) (hn : token n) :
    ¬ strlen (c :: (n ++ rest)) ≤ 1 := by
  obtain ⟨h1, _, _⟩ := hn
  cases n with
  | nil => exact absurd rfl h1
  | cons a n => simp [strlen]

theorem interpret_q {n : CStr} (fs : files) (len free : Nat) (head : node_t) (response : CStr)
    (hn : token n) :
    interpret_command fs len free head (113 :: n) response =
      if strlen (db_query head n response len) = 0 then
        (head, snprintf (db_query head n response len) len not_found)
      else (head, db_query head n response len) := by
  have h0 := strlen_cons_token 113 [] hn
  rw [List.append_nil] at h0
  rw [interpret_command]
  simp only [h0, if_false, List.headD_cons, List.tail_cons, if_true, sscanf_1_token hn]
  simp

theorem interpret_a {n v : CStr} (fs : files) (len free : Nat) (head : node_t)
    (response : CStr) (hn : token n) (hv : token v) :
    interpret_command fs len free head (97 :: (n ++ 32 :: v)) response =
      if (db_add head n v).2 ≠ 0 then ((db_add head n v).1, snprintf response len added)
      else ((db_add head n v).1, snprintf response len already_in_database) := by
  have h0 := strlen_cons_token 97 (32 :: v) hn
  rw [interpret_command]
  simp only [h0, if_false, List.headD_cons, List.tail_cons, sscanf_2_tokens hn hv]
  simp

theorem interpret_d {n : CStr} (fs : files) (len free : Nat) (head : node_t) (response : CStr)
    (hn : token n) :
    interpret_command fs len free head (100 :: n) response =
      if (db_remove head n).2 ≠ 0 then
        ((db_remove head n).1, snprintf response len removed)
      else ((db_remove head n).1, snprintf response len not_in_database) := by
  have h0 := strlen_cons_token 100 [] hn
  rw [List.append_nil] at h0
  rw [interpret_command]
  simp only [h0, if_false, List.headD_cons, List.tail_cons, sscanf_1_token hn]
  simp

theorem interpret_qad_of_values (fs : files) (len free : Nat) (head : node_t)
    (name value response : CStr) (ho : ordered_store head) (hf : fits head)
    (hvals : ∀ e ∈ contents head, e.2 ≠ [] ∧ e.2 ≠ not_found)
    (hn : token name) (hv : token value) (hl : MAXLEN ≤ len) :
    ((name ∉ keys head →
        interpret_command fs len free head (113 :: name) response = (head, not_found)) ∧
      (∀ v, (name, v) ∈ contents head → v ≠ not_found ∧
        interpret_command fs len free head (113 :: name) response = (head, v))) ∧
    ((name ∉ keys head →
        interpret_command fs len free head (97 :: (name ++ 32 :: value)) response =
          ((db_add head name value).1, added) ∧
        (name, value) ∈ contents (db_add head name value).1) ∧
      (name ∈ keys head →
        interpret_command fs len free head (97 :: (name ++ 32 :: value)) response =
          (head, already_in_database))) ∧
    ((name ∈ keys head →
        interpret_command fs len free head (100 :: name) response =
          ((db_remove head name).1, removed) ∧
        name ∉ keys (db_remove head name).1) ∧
      (name ∉ keys head →
        interpret_command fs len free head (100 :: name) response =
          (head, not_in_database))) := by
  obtain ⟨hv0, rc, rfl, hb⟩ := ordered_store_cases ho
  have hfr : fits rc := hf.2.2.2
  rw [names_sentinel, contents_sentinel] at *
  have e1 : snprintf response len added = added := snprintf_whole _ _ hl (by decide)
  have e2 : snprintf response len already_in_database = already_in_database :=
    snprintf_whole _ _ hl (by decide)
  have e3 : snprintf response len removed = removed := snprintf_whole _ _ hl (by decide)
  have e4 : snprintf response len not_in_database = not_in_database :=
    snprintf_whole _ _ hl (by decide)
  refine ⟨⟨?_, ?_⟩, ⟨?_, ?_⟩, ⟨?_, ?_⟩⟩
  · intro ha
    rw [interpret_q fs len free _ response hn, sentinel_query,
      lookup_eq_none_of_not_mem name rc ha]
    simp only [Option.getD]
    rw [snprintf_whole _ _ hl (by decide)]
    simp [strlen, not_found]
  · intro v hm
    have hne := (hvals _ hm).1
    refine ⟨(hvals _ hm).2, ?_⟩
    rw [interpret_q fs len free _ response hn, sentinel_query, lookup_of_mem hb hm]
    simp only [Option.getD]
    rw [snprintf_whole _ _ hl (fits_of_mem_entries hfr hm).2]
    have : ¬ strlen v = 0 := by
      simp only [strlen, List.length_eq_zero]
      exact hne
    simp [this]
  · intro ha
    have hn0 := lookup_eq_none_of_not_mem name rc ha
    rw [interpret_a fs len free _ response hn hv, sentinel_add,
      node_constructor_short _ _ hn.2.2 hv.2.2, hn0, e1, e2]
    refine ⟨by simp, ?_⟩
    rw [contents_sentinel, entries_graft hn0]
    exact Or.inl rfl
  · intro hp
    have hs := (lookup_isSome_iff hb).2 hp
    rw [interpret_a fs len free _ response hn hv, sentinel_add,
      graft_of_lookup_isSome _ _ _ hs, e1, e2]
    simp [hs]
  · intro hp
    have hs := (lookup_isSome_iff hb).2 hp
    rw [interpret_d fs len free _ response hn, sentinel_remove, e3, e4]
    refine ⟨by simp [hs], ?_⟩
    rw [names_sentinel, names_prune hb hfr]
    simp
  · intro ha
    have hn0 := lookup_eq_none_of_not_mem name rc ha
    rw [interpret_d fs len free _ response hn, sentinel_remove,
      prune_of_lookup_none _ _ hn0, hn0, e3, e4]
    simp

/-! ### The stores the server can hold -/

theorem token_ne_not_found {v : CStr} (hv : token v) : v ≠ [] ∧ v ≠ not_found := by
  refine ⟨hv.1, ?_⟩
  intro e
  have h := hv.2.1 32 (by rw [e]; decide)
  exact absurd h (by decide)

theorem token_store_add {head : node_t} {name value : CStr} (h : token_store head)
    (hn : token name) (hv : token value) : token_store (db_add head name value).1 := by
  obtain ⟨ho, hf, ht⟩ := h
  obtain ⟨hv0, rc, rfl, hb⟩ := ordered_store_cases ho
  refine ⟨?_, fits_db_add name value hf, ?_⟩
  · rw [sentinel_add, node_constructor_short _ _ hn.2.2 hv.2.2]
    cases hl : lookup name rc with
    | some w =>
      rw [graft_of_lookup_isSome _ _ _ (by rw [hl]; rfl)]
      exact ordered_store_node hb
    | none => exact ordered_store_node (bst_graft hb)
  · rw [sentinel_add, node_constructor_short _ _ hn.2.2 hv.2.2, contents_sentinel]
    rw [contents_sentinel] at ht
    cases hl : lookup name rc with
    | some w =>
      rw [graft_of_lookup_isSome _ _ _ (by rw [hl]; rfl)]
      exact ht
    | none =>
      intro e he
      rcases (entries_graft hl e).1 he with rfl | he
      · exact hv
      · exact ht e he

theorem token_store_remove {head : node_t} (name : CStr) (h : token_store head) :
    token_store (db_remove head name).1 := by
  obtain ⟨ho, hf, ht⟩ := h
  obtain ⟨hv0, rc, rfl, hb⟩ := ordered_store_cases ho
  refine ⟨?_, fits_db_remove name hf, ?_⟩
  · rw [sentinel_remove]
    exact ordered_store_node (bst_prune hb hf.2.2.2)
  · rw [sentinel_remove, contents_sentinel, entries_prune hb hf.2.2.2]
    rw [contents_sentinel] at ht
    intro e he
    exact ht e (List.mem_of_mem_filter he)

theorem replay_keeps {P : node_t → Prop} {f : node_t → CStr → CStr → node_t × CStr}
    (hf : ∀ head c r, P head → P (f head c r).1) (lines : List CStr) :
    ∀ head r, P head → P (replay f lines head r).1 := by
  induction lines with
  | nil => intro head r h; exact h
  | cons line lines ih =>
    intro head r h
    rw [replay]
    exact ih _ _ (hf _ _ _ h)

theorem interpret_token_store (fs : files) (len free : Nat) :
    ∀ (head : node_t) (command response : CStr), token_store head →
      token_store (interpret_command fs len free head command response).1 := by
  induction free with
  | zero =>
    intro head command response h
    rw [interpret_command]
    simp only []
    split_ifs
    all_goals first
      | exact h
      | exact token_store_add h (sscanf_2_some_tokens (by assumption)).1
          (sscanf_2_some_tokens (by assumption)).2
      | exact token_store_remove _ h
      | (split <;> exact h)
  | succ k ih =>
    intro head command response h
    rw [interpret_command]
    simp only []
    split_ifs
    all_goals first
      | exact h
      | exact token_store_add h (sscanf_2_some_tokens (by assumption)).1
          (sscanf_2_some_tokens (by assumption)).2
      | exact token_store_remove _ h
      | (split
         · exact h
         · exact replay_keeps ih _ _ _ h)

theorem served_token_store {head : node_t} (h : served head) : token_store head := by
  induction h with
  | init => exact ⟨by decide, by decide, by intro e he; simp [contents, head0, node_t.lchild, node_t.rchild] at he⟩
  | command fs len free command response _ ih =>
    exact interpret_token_store fs len free _ _ _ ih

/-- C12: in every store the server can hold, for tokens `name` and `value` of at most 255
bytes and a response buffer of at least 256 bytes: `q<name>` answers the stored value when
the name is present and "not found" when it is absent, and no stored value is that text;
`a<name> <value>` answers "added" when the name was absent, and the name then maps to the
value, and "already in database" with the store unchanged otherwise; `d<name>` answers
"removed" when the name was present, and it is then absent, and "not in database" with
the store unchanged otherwise. -/
theorem interpret_command_qad (fs : files) (len free : Nat) (head : node_t)
    (name value response : CStr) (hs : served head)
    (hn : token name) (hv : token value) (hl : MAXLEN ≤ len) :
    ((name ∉ keys head →
        interpret_command fs len free head (113 :: name) response = (head, not_found)) ∧
      (∀ v, (name, v) ∈ contents head → v ≠ not_found ∧
        interpret_command fs len free head (113 :: name) response = (head, v))) ∧
    ((name ∉ keys head →
        interpret_command fs len free head (97 :: (name ++ 32 :: value)) response =
          ((db_add head name value).1, added) ∧
        (name, value) ∈ contents (db_add head name value).1) ∧
      (name ∈ keys head →
        interpret_command fs len free head (97 :: (name ++ 32 :: value)) response =
          (head, already_in_database))) ∧
    ((name ∈ keys head →
        interpret_command fs len free head (100 :: name) response =
          ((db_remove head name).1, removed) ∧
        name ∉ keys (db_remove head name).1) ∧
      (name ∉ keys head →
        interpret_command fs len free head (100 :: name) response =
          (head, not_in_database))) := by
  obtain ⟨ho, hf, ht⟩ := served_token_store hs
  exact interpret_qad_of_values fs len free head name value response ho hf
    (fun e he => token_ne_not_found (ht e he)) hn hv hl


/-! ### Ill-formed commands -/

theorem sscanf_1_blank {w : CStr} (hw : blank w) : (sscanf_1 w).1 < 1 := by
  simp [sscanf_1, scan_s_blank hw]

theorem sscanf_2_blank {w : CStr} (hw : blank w) : (sscanf_2 w).1 < 2 := by
  simp [sscanf_2, scan_s_blank hw]

theorem sscanf_2_one_token {w1 tok w2 : CStr} (h1 : blank w1) (ht : token tok)
    (h2 : blank w2) : (sscanf_2 (w1 ++ (tok ++ w2))).1 < 2 := by
  have e1 : scan_s (w1 ++ (tok ++ w2)) = some (tok, w2) := by
    rw [scan_s_skip _ h1]
    exact scan_s_token w2 ht (fun b r e => h2 b (by rw [e]; exact List.mem_cons_self _ _))
  simp [sscanf_2, e1, scan_s_blank h2]

/-- C13: a command line of none of the four forms (at most one character; a first
character other than `q`, `a`, `d`, `f`, such as the console verbs `s`, `g`, `p`; a missing
name; for `a`, a missing value) is answered with exactly "ill-formed command", and the
store is left as it was. -/
theorem interpret_command_ill_formed (fs : files) (len free : Nat) (head : node_t)
    (command response : CStr) (hm : malformed command) (hl : MAXLEN ≤ len) :
    interpret_command fs len free head command response = (head, ill_formed) := by
  have e : snprintf response len ill_formed = ill_formed := snprintf_whole _ _ hl (by decide)
  rw [interpret_command, e]
  by_cases h0 : strlen command ≤ 1
  · simp [h0]
  · simp only [h0, if_false]
    rcases hm with hm | hm | hm | hm
    · exact absurd hm h0
    · rw [if_neg hm.1, if_neg hm.2.1, if_neg hm.2.2.1, if_neg hm.2.2.2]
    · have s1 := sscanf_1_blank hm
      have s2 := sscanf_2_blank hm
      simp only [s1, s2, if_true]
      split_ifs <;> rfl
    · obtain ⟨ha, w1, tok, w2, et, h1, ht, h2⟩ := hm
      have s2 := sscanf_2_one_token h1 ht h2
      rw [← et] at s2
      rw [if_neg (by rw [ha]; decide), if_pos ha, if_pos s2]

/-- The console verb `s`, a lone `q`, a `d` followed by white space only, an `a` with a
name but no value, and the empty line. -/
theorem interpret_command_ill_formed_witness :
    malformed [115, 10] ∧ malformed [113] ∧ malformed [100, 32, 10] ∧
      malformed [97, 107, 10] ∧ malformed [] ∧
      interpret_command (fun _ => none) 256 0 store_abc [115, 10] [] =
        (store_abc, ill_formed) ∧
      interpret_command (fun _ => none) 256 0 store_abc [97, 107, 10] [] =
        (store_abc, ill_formed) :=
  ⟨Or.inr (Or.inl (by decide)), Or.inl (by decide), Or.inr (Or.inr (Or.inl (by decide))),
    Or.inr (Or.inr (Or.inr ⟨rfl, [], [107], [10], rfl, by decide, by decide, by decide⟩)),
    Or.inl (by decide),
    interpret_command_ill_formed _ 256 0 store_abc [115, 10] []
      (Or.inr (Or.inl (by decide))) (by decide),
    interpret_command_ill_formed _ 256 0 store_abc [97, 107, 10] []
      (Or.inr (Or.inr (Or.inr ⟨rfl, [], [107], [10], rfl, by decide, by decide, by decide⟩)))
      (by decide)⟩

/-- The queries, inserts and removals of the protocol on the store the commands
`aalice 30`, `abob 25` and `acarol 40` leave. -/
theorem interpret_command_qad_witness :
    served store_served ∧ store_served = store_abc ∧ token bob ∧ token [52, 49] ∧
      bob ∈ keys store_served ∧
      interpret_command (fun _ => none) 256 0 store_served (113 :: bob) [] =
        (store_served, [50, 53]) ∧
      interpret_command (fun _ => none) 256 0 store_served (97 :: (bob ++ 32 :: [52, 49])) [] =
        (store_served, already_in_database) ∧
      interpret_command (fun _ => none) 256 0 store_served (100 :: bob) [] =
        ((db_remove store_served bob).1, removed) ∧
      interpret_command (fun _ => none) 256 0 store_served (113 :: [122]) [] =
        (store_served, not_found) :=
  ⟨served.command _ _ _ _ _ (served.command _ _ _ _ _ (served.command _ _ _ _ _ served.init)),
    by decide, by decide, by decide, by decide,
    ((interpret_command_qad (fun _ => none) 256 0 store_served bob [52, 49] []
      (served.command _ _ _ _ _ (served.command _ _ _ _ _ (served.command _ _ _ _ _ served.init)))
      (by decide) (by decide) (by decide)).1.2 [50, 53] (by decide)).2,
    (interpret_command_qad (fun _ => none) 256 0 store_served bob [52, 49] []
      (served.command _ _ _ _ _ (served.command _ _ _ _ _ (served.command _ _ _ _ _ served.init)))
      (by decide) (by decide) (by decide)).2.1.2 (by decide),
    ((interpret_command_qad (fun _ => none) 256 0 store_served bob [52, 49] []
      (served.command _ _ _ _ _ (served.command _ _ _ _ _ (served.command _ _ _ _ _ served.init)))
      (by decide) (by decide) (by decide)).2.2.1 (by decide)).1,
    (interpret_command_qad (fun _ => none) 256 0 store_served [122] [52, 49] []
      (served.command _ _ _ _ _ (served.command _ _ _ _ _ (served.command _ _ _ _ _ served.init)))
      (by decide) (by decide) (by decide)).1.1 (by decide)⟩


/-! ### The command `f` -/

theorem interpret_f {n : CStr} (fs : files) (len free : Nat) (head : node_t) (response : CStr)
    (hn : token n) :
    interpret_command fs len free head (102 :: n) response =
      match fs n with
      | none => (head, snprintf response len bad_file_name)
      | some lines =>
        match free with
        | 0 => (head, snprintf response len bad_file_name)
        | free2 + 1 =>
          ((replay (interpret_command fs len free2) lines head response).1,
            snprintf (replay (interpret_command fs len free2) lines head response).2 len
              file_processed) := by
  have h0 := strlen_cons_token 102 [] hn
  rw [List.append_nil] at h0
  rw [interpret_command]
  simp only [h0, if_false, List.headD_cons, List.tail_cons, sscanf_1_token hn]
  cases fs n with
  | none => simp
  | some lines => cases free <;> simp

theorem replay_store_indep {f : node_t → CStr → CStr → node_t × CStr}
    (hf : ∀ head c r1 r2, (f head c r1).1 = (f head c r2).1) (lines : List CStr) :
    ∀ head r1 r2, (replay f lines head r1).1 = (replay f lines head r2).1 := by
  induction lines with
  | nil => intro head r1 r2; rfl
  | cons line lines ih =>
    intro head r1 r2
    rw [replay, replay, hf head line r1 r2]
    exact ih _ _ _

theorem interpret_store_indep (fs : files) (len free : Nat) :
    ∀ (head : node_t) (command r1 r2 : CStr),
      (interpret_command fs len free head command r1).1 =
        (interpret_command fs len free head command r2).1 := by
  induction free with
  | zero =>
    intro head command r1 r2
    rw [interpret_command, interpret_command]
    simp only []
    split_ifs <;> first | rfl | (split <;> rfl)
  | succ k ih =>
    intro head command r1 r2
    rw [interpret_command, interpret_command]
    simp only []
    split_ifs <;> first | rfl | (split
                                 · rfl
                                 · exact replay_store_indep ih _ _ _ _)

theorem replay_store (fs : files) (len free : Nat) (lines : List CStr) :
    ∀ head response, (replay (interpret_command fs len free) lines head response).1 =
      apply_lines fs len free lines head := by
  induction lines with
  | nil => intro head response; rfl
  | cons line lines ih =>
    intro head response
    rw [replay, ih, interpret_store_indep fs len free head line response []]
    rfl

theorem apply_lines_append (fs : files) (len free : Nat) (l1 l2 : List CStr) (head : node_t) :
    apply_lines fs len free (l1 ++ l2) head =
      apply_lines fs len free l2 (apply_lines fs len free l1 head) := by
  simp [apply_lines, List.foldl_append]

theorem malformed_keeps_store (fs : files) (len free : Nat) (head : node_t)
    (command response : CStr) (hm : malformed command) :
    (interpret_command fs len free head command response).1 = head := by
  rw [interpret_command]
  by_cases h0 : strlen command ≤ 1
  · simp [h0]
  · simp only [h0, if_false]
    rcases hm with hm | hm | hm | hm
    · exact absurd hm h0
    · rw [if_neg hm.1, if_neg hm.2.1, if_neg hm.2.2.1, if_neg hm.2.2.2]
    · have s1 := sscanf_1_blank hm
      have s2 := sscanf_2_blank hm
      simp only [s1, s2, if_true]
      split_ifs <;> rfl
    · obtain ⟨ha, w1, tok, w2, et, h1, ht, h2⟩ := hm
      have s2 := sscanf_2_one_token h1 ht h2
      rw [← et] at s2
      rw [if_neg (by rw [ha]; decide), if_pos ha, if_pos s2]

/-- C14: for the command `f<filename>`, if the file cannot be opened (it is not there, or
no descriptor is left) the response is "bad file name" and the store is unchanged; if it
can be opened, the response is "file processed" and the store is the one obtained by
applying the lines of the file in order, each line to the store left by the lines before
it and the lines after it to the store it leaves; an ill-formed line changes nothing and
the lines after it are applied all the same. -/
theorem interpret_command_file (fs : files) (len free : Nat) (head : node_t)
    (name response : CStr) (hn : token name) (hl : MAXLEN ≤ len) :
    (fs name = none →
        interpret_command fs len free head (102 :: name) response = (head, bad_file_name)) ∧
      interpret_command fs len 0 head (102 :: name) response = (head, bad_file_name) ∧
      (∀ lines, fs name = some lines →
        interpret_command fs len (free + 1) head (102 :: name) response =
            (apply_lines fs len free lines head, file_processed) ∧
          (∀ before line after, lines = before ++ line :: after →
            apply_lines fs len free lines head =
              apply_lines fs len free after
                (interpret_command fs len free (apply_lines fs len free before head)
                  line []).1) ∧
          (∀ before line after, lines = before ++ line :: after → malformed line →
            apply_lines fs len free lines head =
              apply_lines fs len free after (apply_lines fs len free before head)) ∧
          ∀ line r1 r2 h, (interpret_command fs len free h line r1).1 =
            (interpret_command fs len free h line r2).1) := by
  have e1 : snprintf response len bad_file_name = bad_file_name :=
    snprintf_whole _ _ hl (by decide)
  have e2 : ∀ r : CStr, snprintf r len file_processed = file_processed :=
    fun r => snprintf_whole _ _ hl (by decide)
  have step : ∀ before line after,
      apply_lines fs len free (before ++ line :: after) head =
        apply_lines fs len free after
          (interpret_command fs len free (apply_lines fs len free before head) line []).1 := by
    intro before line after
    rw [apply_lines_append]
    rfl
  refine ⟨?_, ?_, ?_⟩
  · intro hnone
    rw [interpret_f fs len free head response hn, hnone, e1]
  · rw [interpret_f fs len 0 head response hn, e1]
    cases fs name <;> rfl
  · intro lines hopen
    refine ⟨?_, ?_, ?_, ?_⟩
    · rw [interpret_f fs len (free + 1) head response hn, hopen]
      simp only [e2, replay_store]
    · intro before line after e
      rw [e]
      exact step before line after
    · intro before line after e hm
      rw [e, step before line after, malformed_keeps_store fs len free _ line [] hm]
    · intro line r1 r2 h
      exact interpret_store_indep fs len free h line r1 r2

/-- The file `"y"`: the insert of k, two ill-formed lines, the insert of j and the removal
of k are all replayed, leaving j alone in the store; and the file `"x"`, whose line replays
`"x"`, is processed as far as descriptors are left, here three. -/
theorem interpret_command_file_witness :
    token [121] ∧ files_sample [121] ≠ none ∧ files_sample [122] = none ∧
      interpret_command files_sample 256 1 head0 [102, 122] [] = (head0, bad_file_name) ∧
      interpret_command files_sample 256 0 head0 [102, 121] [] = (head0, bad_file_name) ∧
      interpret_command files_sample 256 1 head0 [102, 121] [] =
        ((db_add head0 [106] [119]).1, file_processed) ∧
      interpret_command files_loop 256 3 head0 [102, 120] [] = (head0, file_processed) :=
  ⟨by decide, by decide, by decide,
    (interpret_command_file files_sample 256 1 head0 [122] [] (by decide) (by decide)).1
      (by decide),
    (interpret_command_file files_sample 256 0 head0 [121] [] (by decide) (by decide)).2.1,
    (((interpret_command_file files_sample 256 0 head0 [121] [] (by decide) (by decide)).2.2
      _ rfl).1).trans (by decide),
    (((interpret_command_file files_loop 256 2 head0 [120] [] (by decide) (by decide)).2.2
      _ rfl).1).trans (by decide)⟩


/-! ### Lock coupling in `search`, `db_query` and `db_add` -/

theorem search_trace_l_null {name pn : CStr} (lt : locktype_t) (keep : Bool) (pv : CStr)
    (rc : node_t) (pp : ptr) (h : strcmp name pn < 0) :
    search_trace name lt keep (.node pn pv .null rc) pp =
      [.read pp .name, .read pp .lchild] ++ (if keep then [] else [.unlock pp]) := by
  rw [search_trace.eq_def]; simp only [h, if_true]

theorem search_trace_l_hit {name pn ln : CStr} (lt : locktype_t) (keep : Bool)
    (pv lv : CStr) (ll lr rc : node_t) (pp : ptr) (h : strcmp name pn < 0)
    (h0 : strcmp name ln = 0) :
    search_trace name lt keep (.node pn pv (.node ln lv ll lr) rc) pp =
      [.read pp .name, .read pp .lchild, .lock lt (pp ++ [.l]), .read (pp ++ [.l]) .name] ++
        (if keep then [] else [.unlock pp]) := by
  rw [search_trace.eq_def]; simp only [h, h0, if_true]

theorem search_trace_l_miss {name pn ln : CStr} (lt : locktype_t) (keep : Bool)
    (pv lv : CStr) (ll lr rc : node_t) (pp : ptr) (h : strcmp name pn < 0)
    (h0 : ¬ strcmp name ln = 0) :
    search_trace name lt keep (.node pn pv (.node ln lv ll lr) rc) pp =
      [.read pp .name, .read pp .lchild, .lock lt (pp ++ [.l]), .read (pp ++ [.l]) .name,
        .unlock pp] ++ search_trace name lt keep (.node ln lv ll lr) (pp ++ [.l]) := by
  conv_lhs => rw [search_trace.eq_def]
  simp only [h, h0, if_true, if_false]

theorem search_trace_r_null {name pn : CStr} (lt : locktype_t) (keep : Bool) (pv : CStr)
    (lc : node_t) (pp : ptr) (h : ¬ strcmp name pn < 0) :
    search_trace name lt keep (.node pn pv lc .null) pp =
      [.read pp .name, .read pp .rchild] ++ (if keep then [] else [.unlock pp]) := by
  rw [search_trace.eq_def]; simp only [h, if_false]

theorem search_trace_r_hit {name pn ln : CStr} (lt : locktype_t) (keep : Bool)
    (pv lv : CStr) (ll lr lc : node_t) (pp : ptr) (h : ¬ strcmp name pn < 0)
    (h0 : strcmp name ln = 0) :
    search_trace name lt keep (.node pn pv lc (.node ln lv ll lr)) pp =
      [.read pp .name, .read pp .rchild, .lock lt (pp ++ [.r]), .read (pp ++ [.r]) .name] ++
        (if keep then [] else [.unlock pp]) := by
  rw [search_trace.eq_def]; simp only [h, h0, if_true, if_false]

theorem search_trace_r_miss {name pn ln : CStr} (lt : locktype_t) (keep : Bool)
    (pv lv : CStr) (ll lr lc : node_t) (pp : ptr) (h : ¬ strcmp name pn < 0)
    (h0 : ¬ strcmp name ln = 0) :
    search_trace name lt keep (.node pn pv lc (.node ln lv ll lr)) pp =
      [.read pp .name, .read pp .rchild, .lock lt (pp ++ [.r]), .read (pp ++ [.r]) .name,
        .unlock pp] ++ search_trace name lt keep (.node ln lv ll lr) (pp ++ [.r]) := by
  conv_lhs => rw [search_trace.eq_def]
  simp only [h, h0, if_false]

theorem ptr_snoc_ne (pp : ptr) (k : link) : pp ++ [k] ≠ pp := by
  intro h
  have := congrArg List.length h
  simp at this

theorem coupled_no_lock (t : List access) (h : holding)
    (hn : ∀ e ∈ t, ∀ lt p, e ≠ .lock lt p) : coupled h t = true := by
  induction t generalizing h with
  | nil => rfl
  | cons e t ih =>
    have ht : ∀ e2 ∈ t, ∀ lt p, e2 ≠ .lock lt p := fun e2 h2 => hn e2 (List.mem_cons_of_mem _ h2)
    cases e with
    | lock lt p => exact absurd rfl (hn _ (List.mem_cons_self _ _) lt p)
    | unlock p => exact ih _ ht
    | read p f => exact ih _ ht
    | write p f => exact ih _ ht
    | destroy p => exact ih _ ht

/-- What `search` does at a parent whose child is not null and is not the target: lock the
child under the parent's lock, release the parent. -/
theorem coupled_step_down (pp : ptr) (k : link) (lt : locktype_t) (f g : field_t)
    (t : List access) :
    coupled [(pp, lt)] ([.read pp .name, .read pp f, .lock lt (pp ++ [k]),
        .read (pp ++ [k]) g, .unlock pp] ++ t) = coupled [(pp ++ [k], lt)] t := by
  have h1 : pp ++ [k] ≠ [] := by simp
  simp [coupled, holds, release, h1, ptr_snoc_ne, List.dropLast_concat]

/-- What `search` does at a parent whose child is the target: lock the child under the
parent's lock. -/
theorem coupled_step_hit (pp : ptr) (k : link) (lt : locktype_t) (f g : field_t)
    (t : List access) (ht : ∀ e ∈ t, ∀ l p, e ≠ .lock l p) :
    coupled [(pp, lt)] ([.read pp .name, .read pp f, .lock lt (pp ++ [k]),
        .read (pp ++ [k]) g] ++ t) = true := by
  have h1 : pp ++ [k] ≠ [] := by simp
  simp only [List.cons_append, List.nil_append, coupled]
  simp only [h1, if_false, holds, List.dropLast_concat, List.any_cons, decide_True,
    Bool.true_or, List.length_singleton, Bool.true_and]
  exact coupled_no_lock _ _ ht

theorem no_lock_tail (keep : Bool) (pp : ptr) (rest : List access)
    (hr : ∀ e ∈ rest, ∀ l p, e ≠ .lock l p) :
    ∀ e ∈ (if keep then [] else [access.unlock pp]) ++ rest, ∀ l p, e ≠ .lock l p := by
  intro e he l p
  rcases List.mem_append.1 he with h | h
  · cases keep
    · simp at h; rw [h]; exact fun e2 => access.noConfusion e2
    · simp at h
  · exact hr e h l p

/-- From the lock of the parent it starts at, `search` takes its locks by coupling,
whatever accesses without locking follow it. -/
theorem coupled_search (name : CStr) (lt : locktype_t) (keep : Bool) (t : node_t) :
    ∀ (pp : ptr) (rest : List access), (∀ e ∈ rest, ∀ l p, e ≠ .lock l p) →
      coupled [(pp, lt)] (search_trace name lt keep t pp ++ rest) = true := by
  induction t with
  | null =>
    intro pp rest hr
    exact coupled_no_lock _ _ hr
  | node pn pv lc rc ihl ihr =>
    intro pp rest hr
    have hr2 := no_lock_tail keep pp rest hr
    by_cases h : strcmp name pn < 0
    · cases lc with
      | null =>
        rw [search_trace_l_null lt keep pv rc pp h, List.append_assoc]
        simp only [List.cons_append, List.nil_append, coupled]
        exact coupled_no_lock _ _ hr2
      | node ln lv ll lr =>
        by_cases h0 : strcmp name ln = 0
        · rw [search_trace_l_hit lt keep pv lv ll lr rc pp h h0, List.append_assoc]
          exact coupled_step_hit _ _ _ _ _ _ hr2
        · rw [search_trace_l_miss lt keep pv lv ll lr rc pp h h0, List.append_assoc,
            coupled_step_down]
          exact ihl _ _ hr
    · cases rc with
      | null =>
        rw [search_trace_r_null lt keep pv lc pp h, List.append_assoc]
        simp only [List.cons_append, List.nil_append, coupled]
        exact coupled_no_lock _ _ hr2
      | node ln lv ll lr =>
        by_cases h0 : strcmp name ln = 0
        · rw [search_trace_r_hit lt keep pv lv ll lr lc pp h h0, List.append_assoc]
          exact coupled_step_hit _ _ _ _ _ _ hr2
        · rw [search_trace_r_miss lt keep pv lv ll lr lc pp h h0, List.append_assoc,
            coupled_step_down]
          exact ihr _ _ hr

/-- C18: on any tree, `db_query` and `db_add` take their locks by coupling from the
sentinel down: the sentinel's lock first, every other lock while the lock of the parent
node is still held, and never more than two locks at once. -/
theorem query_and_add_couple_locks (head : node_t) (name : CStr) :
    coupled [] (db_query_trace head name) = true ∧
      coupled [] (db_add_trace head name) = true := by
  constructor
  · rw [db_query_trace]
    simp only [List.append_assoc, List.singleton_append, coupled]
    simp only [if_true, List.isEmpty_nil, List.length_nil, Bool.true_and]
    apply coupled_search
    intro e he l p
    cases hs : (search name head).1 with
    | none => rw [hs] at he; simp at he
    | some target =>
      rw [hs] at he
      simp only [List.mem_cons, List.mem_singleton, List.not_mem_nil, or_false] at he
      rcases he with rfl | rfl <;> exact fun e2 => access.noConfusion e2
  · rw [db_add_trace]
    simp only [List.append_assoc, List.singleton_append, coupled]
    simp only [if_true, List.isEmpty_nil, List.length_nil, Bool.true_and]
    apply coupled_search
    intro e he l p
    rcases hs : search name head with ⟨res, parent⟩
    rw [hs] at he
    cases res with
    | none =>
      simp only [List.mem_cons, List.mem_singleton, List.not_mem_nil, or_false] at he
      rcases he with rfl | rfl | rfl <;> exact fun e2 => access.noConfusion e2
    | some target =>
      simp only [List.mem_cons, List.mem_singleton, List.not_mem_nil, or_false] at he
      rcases he with rfl | rfl <;> exact fun e2 => access.noConfusion e2


/-! ### Where the locking discipline is broken -/

/-- C17, at the failing input: in the store built from m, b, t, o, `db_remove("m")` finds
the successor o two levels below m, as the left child of t.  The walk down has released
the lock of t when `*pnext = next->rchild` writes the `lchild` field of t: that write is
the first access made without the lock of its node.  When the successor is the right
child itself, or the node has at most one child, every access is made under its lock. -/
theorem db_remove_writes_unlocked_parent :
    (search [109] store_mbto).1 = some [.r] ∧
      leftmost (deref store_mbto [.r]).rchild = [.l] ∧
      first_unguarded [] (db_remove_trace store_mbto [109]) = some (.write [.r, .r] .lchild) ∧
      guarded [] (db_remove_trace store_mbto [109]) = false ∧
      guarded [] (db_remove_trace (db_remove store_mbto [111]).1 [109]) = true ∧
      guarded [] (db_remove_trace store_mbto [98]) = true ∧
      guarded [] (db_query_trace store_mbto [111]) = true ∧
      guarded [] (db_add_trace store_mbto [122]) = true := by
  decide

/-- C19, at the failing input: `db_print` of a file that `fopen` cannot open returns -1
after it has taken the read lock of the sentinel and before anything releases it, so the
caller is left holding that lock; on the paths that print, and in `db_query`, `db_add`
and `db_remove`, nothing is left held. -/
theorem db_print_keeps_sentinel_lock :
    db_print_trace store_abc (some [120]) (fun _ => false) = (-1, [.lock .l_read []]) ∧
      held_after [] (db_print_trace store_abc (some [120]) (fun _ => false)).2 =
        [([], .l_read)] ∧
      held_after [] (db_print_trace store_abc (some [120]) (fun _ => true)).2 = [] ∧
      held_after [] (db_print_trace store_abc none (fun _ => false)).2 = [] ∧
      held_after [] (db_query_trace store_abc bob) = [] ∧
      held_after [] (db_query_trace store_abc [122]) = [] ∧
      held_after [] (db_add_trace store_abc bob) = [] ∧
      held_after [] (db_add_trace store_abc [122]) = [] ∧
      held_after [] (db_remove_trace store_abc bob) = [] ∧
      held_after [] (db_remove_trace store_mbto [109]) = [] ∧
      held_after [] (db_remove_trace store_abc [122]) = [] := by
  decide

/-- C20, at the failing input: `db_cleanup` on the store holding one key runs
`node_destructor` on its node without having taken any lock, so the unlock in
`node_destructor` is of a lock that is not held; in `db_remove` the node handed to
`node_destructor` is locked. -/
theorem db_cleanup_unlocks_unheld :
    db_cleanup_trace (db_add head0 [107] [118]).1 = [.unlock [.r], .destroy [.r]] ∧
      unlocks_held [] (db_cleanup_trace (db_add head0 [107] [118]).1) = false ∧
      unlocks_held [] (db_remove_trace store_abc bob) = true ∧
      unlocks_held [] (db_remove_trace store_mbto [109]) = true := by
  decide

end DB

namespace Server

/-! ### The client list -/

theorem linked_frame {s t : registry} {l : List Nat}
    (h : ∀ a ∈ l, t.prev a = s.prev a ∧ t.next a = s.next a) :
    ∀ {before cur : Option Nat}, linked s before cur l → linked t before cur l := by
  induction l with
  | nil => intro before cur hl; exact hl
  | cons a l ih =>
    intro before cur hl
    obtain ⟨h1, h2, h3⟩ := hl
    have ha := h a (List.mem_cons_self _ _)
    refine ⟨h1, by rw [ha.1]; exact h2, ?_⟩
    rw [ha.2]
    exact ih (fun b hb => h b (List.mem_cons_of_mem _ hb)) h3

theorem linked_cur_mem {s : registry} {l : List Nat} {before cur : Option Nat}
    (h : linked s before cur l) (c : Nat) (hc : cur = some c) : c ∈ l := by
  cases l with
  | nil => rw [h] at hc; exact Option.noConfusion hc
  | cons a l =>
    rw [h.1] at hc
    simp only [Option.some.injEq] at hc
    rw [← hc]
    exact List.mem_cons_self _ _

/-- The `next` of a record of the list is `NULL` or a later record of the list. -/
theorem linked_next_mem {s : registry} {l : List Nat} {before cur : Option Nat}
    (h : linked s before cur l) {c : Nat} (hc : c ∈ l) (n : Nat) (hn : s.next c = some n) :
    n ∈ l := by
  induction l generalizing before cur with
  | nil => simp at hc
  | cons a l ih =>
    obtain ⟨_, _, h3⟩ := h
    rcases List.mem_cons.1 hc with rfl | hc
    · exact List.mem_cons_of_mem _ (linked_cur_mem h3 n hn)
    · exact List.mem_cons_of_mem _ (ih h3 hc)

/-- The `prev` of a record of the list other than the first is a record of the list. -/
theorem linked_prev_mem {s : registry} {l : List Nat} {before cur : Option Nat}
    (h : linked s before cur l) {c : Nat} (hc : c ∈ l) (hh : l.head? ≠ some c) :
    ∃ q ∈ l, s.prev c = some q := by
  induction l generalizing before cur with
  | nil => simp at hc
  | cons a l ih =>
    obtain ⟨_, _, h3⟩ := h
    have hca : c ≠ a := fun e => hh (by rw [e]; rfl)
    rcases List.mem_cons.1 hc with e | hc
    · exact absurd e hca
    · cases l with
      | nil => simp at hc
      | cons b l =>
        by_cases hcb : c = b
        · subst hcb
          exact ⟨a, List.mem_cons_self _ _, h3.2.1⟩
        · obtain ⟨q, hq, hp⟩ := ih h3 hc (fun e => hcb (by
            simp only [List.head?_cons, Option.some.injEq] at e
            exact e.symm))
          exact ⟨q, List.mem_cons_of_mem _ hq, hp⟩

theorem well_formed_register {s : registry} {l : List Nat} (c : Nat) (h : well_formed s l)
    (hc : c ∉ l) : well_formed (register s c) (c :: l) := by
  obtain ⟨hn, hl⟩ := h
  have hhead : s.thread_list_head ≠ some c := fun e => hc (linked_cur_mem hl c e)
  refine ⟨List.nodup_cons.2 ⟨hc, hn⟩, rfl, ?_, ?_⟩
  · simp [register, hhead]
  · simp only [register, if_true]
    cases l with
    | nil => exact hl
    | cons a l =>
      obtain ⟨h1, _, h3⟩ := hl
      have hac : a ≠ c := fun e => hc (by rw [e]; exact List.mem_cons_self _ _)
      have hna := (List.nodup_cons.1 hn).1
      refine ⟨h1, by simp [h1], ?_⟩
      simp only [hac, if_false]
      apply linked_frame _ h3
      intro b hb
      have hba : b ≠ a := fun e => hna (by rw [← e]; exact hb)
      have hbc : b ≠ c := fun e => hc (by rw [← e]; exact List.mem_cons_of_mem _ hb)
      have hh : s.thread_list_head ≠ some b := by
        rw [h1]; intro e; simp only [Option.some.injEq] at e; exact hba e.symm
      simp [hh, hbc]


theorem linked_cleanup_inner {s : registry} {c : Nat} (hh : s.thread_list_head ≠ some c) :
    ∀ {l : List Nat} {before cur : Option Nat}, linked s before cur l → l.Nodup → c ∈ l →
      l.head? ≠ some c → linked (thread_cleanup s c) before cur (l.erase c) := by
  have tp : ∀ j, (thread_cleanup s c).prev j =
      if s.next c = some j then s.prev c else s.prev j := fun j => rfl
  have tn : ∀ j, (thread_cleanup s c).next j =
      if s.prev c = some j then s.next c else s.next j := by
    intro j; simp [thread_cleanup, hh]
  intro l
  induction l with
  | nil => intro before cur _ _ hc; simp at hc
  | cons a l ih =>
    intro before cur hl hn hc hhd
    obtain ⟨h1, h2, h3⟩ := hl
    have hac : a ≠ c := fun e => hhd (by rw [e]; rfl)
    obtain ⟨hal, hnl⟩ := List.nodup_cons.1 hn
    have hcl : c ∈ l := by
      rcases List.mem_cons.1 hc with e | hcl
      · exact absurd e.symm hac
      · exact hcl
    have he : (a :: l).erase c = a :: l.erase c := by
      simp [List.erase_cons, hac]
    rw [he]
    have hna : s.next c ≠ some a := fun e => hal (linked_next_mem h3 hcl a e)
    have hpa : (thread_cleanup s c).prev a = before := by
      rw [tp, if_neg hna]; exact h2
    cases l with
    | nil => simp at hcl
    | cons b l2 =>
      by_cases hbc : b = c
      · subst hbc
        obtain ⟨g1, g2, g3⟩ := h3
        have he2 : (b :: l2).erase b = l2 := by simp
        rw [he2]
        refine ⟨h1, hpa, ?_⟩
        rw [tn, if_pos g2]
        obtain ⟨hbl, hnl2⟩ := List.nodup_cons.1 hnl
        have hal2 : a ∉ l2 := fun hm => hal (List.mem_cons_of_mem _ hm)
        cases l2 with
        | nil => exact g3
        | cons n l3 =>
          obtain ⟨k1, k2, k3⟩ := g3
          have hna2 : n ≠ a := fun e => hal2 (by rw [← e]; exact List.mem_cons_self _ _)
          refine ⟨k1, ?_, ?_⟩
          · rw [tp, if_pos k1]; exact g2
          · have e1 : (thread_cleanup s b).next n = s.next n := by
              rw [tn, g2, if_neg (fun e => hna2 (by
                simp only [Option.some.injEq] at e; exact e.symm))]
            rw [e1]
            apply linked_frame _ k3
            intro x hx
            have hxn : x ≠ n := fun e => (List.nodup_cons.1 hnl2).1 (by rw [← e]; exact hx)
            have hxa : x ≠ a := fun e => hal2 (by rw [← e]; exact List.mem_cons_of_mem _ hx)
            constructor
            · rw [tp, k1, if_neg (fun e => hxn (by
                simp only [Option.some.injEq] at e; exact e.symm))]
            · rw [tn, g2, if_neg (fun e => hxa (by
                simp only [Option.some.injEq] at e; exact e.symm))]
      · have hhd2 : (b :: l2).head? ≠ some c := by
          simp only [List.head?_cons, ne_eq, Option.some.injEq]; exact hbc
        obtain ⟨q, hq, hpq⟩ := linked_prev_mem h3 hcl hhd2
        have hqa : q ≠ a := fun e => hal (by rw [← e]; exact hq)
        refine ⟨h1, hpa, ?_⟩
        have e1 : (thread_cleanup s c).next a = s.next a := by
          rw [tn, hpq, if_neg (fun e => hqa (by
            simp only [Option.some.injEq] at e; exact e))]
        rw [e1]
        exact ih h3 hnl hcl hhd2

theorem linked_cleanup_head {s : registry} {c : Nat} {l2 : List Nat}
    (hl : linked s none s.thread_list_head (c :: l2)) (hn : (c :: l2).Nodup) :
    linked (thread_cleanup s c) none (thread_cleanup s c).thread_list_head l2 := by
  obtain ⟨h1, h2, h3⟩ := hl
  obtain ⟨_, hn2⟩ := List.nodup_cons.1 hn
  have th : (thread_cleanup s c).thread_list_head = s.next c := by
    simp [thread_cleanup, h1]
  have tp : ∀ j, (thread_cleanup s c).prev j =
      if s.next c = some j then s.prev c else s.prev j := fun j => rfl
  have tn : ∀ j, (thread_cleanup s c).next j = s.next j := by
    intro j; simp [thread_cleanup, h1]
  rw [th]
  cases l2 with
  | nil => exact h3
  | cons n l3 =>
    obtain ⟨k1, k2, k3⟩ := h3
    refine ⟨k1, ?_, ?_⟩
    · rw [tp, if_pos k1]; exact h2
    · rw [tn]
      apply linked_frame _ k3
      intro x hx
      have hxn : x ≠ n := fun e => (List.nodup_cons.1 hn2).1 (by rw [← e]; exact hx)
      constructor
      · rw [tp, k1, if_neg (fun e => hxn (by
          simp only [Option.some.injEq] at e; exact e.symm))]
      · rw [tn]

theorem well_formed_cleanup {s : registry} {l : List Nat} (c : Nat) (h : well_formed s l)
    (hc : c ∈ l) : well_formed (thread_cleanup s c) (l.erase c) := by
  obtain ⟨hn, hl⟩ := h
  refine ⟨hn.erase c, ?_⟩
  cases l with
  | nil => simp at hc
  | cons a l2 =>
    by_cases hac : a = c
    · subst hac
      have he : (a :: l2).erase a = l2 := by simp
      rw [he]
      exact linked_cleanup_head hl hn
    · have hh : s.thread_list_head ≠ some c := by
        rw [hl.1]; intro e; simp only [Option.some.injEq] at e; exact hac e
      have th : (thread_cleanup s c).thread_list_head = s.thread_list_head := by
        simp [thread_cleanup, hh]
      rw [th]
      exact linked_cleanup_inner hh hl hn hc (by
        simp only [List.head?_cons, ne_eq, Option.some.injEq]; exact hac)

/-- C11: with registration and `thread_cleanup` each taken as one step, in every reachable
registry state the list from `thread_list_head` is a well-formed doubly linked list of the
clients registered and not yet cleaned up, its length is `num_client_threads`, so the head
is `NULL` whenever the count is 0, and `thread_cleanup(c)` of any client of the list leaves
the well-formed list of the other clients, in the same order. -/
theorem registry_well_formed (s : registry) (l : List Nat) (h : registered s l) :
    well_formed s l ∧ (l.length : Int) = s.num_client_threads ∧
      (s.num_client_threads = 0 → s.thread_list_head = none) ∧
      ∀ c ∈ l, well_formed (thread_cleanup s c) (l.erase c) ∧
        (thread_cleanup s c).num_client_threads = ((l.erase c).length : Int) := by
  have key : well_formed s l ∧ (l.length : Int) = s.num_client_threads := by
    induction h with
    | init => exact ⟨⟨List.nodup_nil, rfl⟩, rfl⟩
    | register c _ hc ih =>
      refine ⟨well_formed_register c ih.1 hc, ?_⟩
      simp only [List.length_cons, register, Nat.cast_add, Nat.cast_one, ih.2]
    | cleanup c _ hc ih =>
      refine ⟨well_formed_cleanup c ih.1 hc, ?_⟩
      rw [List.length_erase_of_mem hc]
      have hpos : 0 < _ := List.length_pos_of_mem hc
      simp only [thread_cleanup, ← ih.2]
      omega
  refine ⟨key.1, key.2, ?_, ?_⟩
  · intro h0
    rw [h0] at key
    have hnil : l = [] := by
      apply List.eq_nil_of_length_eq_zero
      exact_mod_cast key.2
    subst hnil
    exact key.1.2
  · intro c hc
    refine ⟨well_formed_cleanup c key.1 hc, ?_⟩
    rw [List.length_erase_of_mem hc]
    have hpos : 0 < _ := List.length_pos_of_mem hc
    simp only [thread_cleanup, ← key.2]
    omega


/-- Three clients, and the cleanup of the one in the middle, at the head and at the tail of
the list. -/
theorem registry_well_formed_witness :
    registered registry_three [30, 20, 10] ∧
      registry_three.thread_list_head = some 30 ∧ registry_three.num_client_threads = 3 ∧
      (thread_cleanup registry_three 20).next 30 = some 10 ∧
      (thread_cleanup registry_three 20).prev 10 = some 30 ∧
      (thread_cleanup registry_three 30).thread_list_head = some 20 ∧
      (thread_cleanup registry_three 30).prev 20 = none ∧
      (thread_cleanup registry_three 10).next 20 = none ∧
      well_formed (thread_cleanup registry_three 20) ([30, 20, 10].erase 20) ∧
      [30, 20, 10].erase 20 = [30, 10] :=
  ⟨.register 30 (.register 20 (.register 10 .init (by decide)) (by decide)) (by decide),
    by decide, by decide, by decide, by decide, by decide, by decide, by decide,
    ((registry_well_formed registry_three [30, 20, 10]
      (.register 30 (.register 20 (.register 10 .init (by decide)) (by decide))
        (by decide))).2.2.2 20 (by decide)).1,
    by decide⟩

end Server

namespace DB

/-! ### The sentinel -/

theorem built_shape {head : node_t} (h : built head) : ∃ rc, head = .node [] [] .null rc := by
  induction h with
  | init => exact ⟨.null, rfl⟩
  | add name value _ ih =>
    obtain ⟨rc, rfl⟩ := ih
    rw [sentinel_add]
    exact ⟨_, rfl⟩
  | remove name _ ih =>
    obtain ⟨rc, rfl⟩ := ih
    rw [sentinel_remove]
    exact ⟨_, rfl⟩

/-- C21: in every store reachable from the empty store by `db_add` and `db_remove`,
whatever their arguments, the sentinel is there with an empty name and an empty value and
without left child, so the real nodes are those below its right child; no name, the empty
one included, compares below the sentinel's name. -/
theorem sentinel_keeps_left_null (head : node_t) (h : built head) :
    head ≠ .null ∧ head.name = [] ∧ head.value = [] ∧ head.lchild = .null ∧
      contents head = entries head.rchild ∧
      (∀ name, ¬ strcmp name head.name < 0) ∧
      ∀ name, side name head = head.rchild := by
  obtain ⟨rc, rfl⟩ := built_shape h
  refine ⟨by simp, rfl, rfl, rfl, contents_sentinel _ _, ?_, ?_⟩
  · intro name
    exact strcmp_nil_right name
  · intro name
    simp [side, node_t.name, node_t.rchild, strcmp_nil_right]

/-- The store holding a node with the empty name, and the store left by an insert and two
removals: the node with the empty name is the right child of the sentinel. -/
theorem sentinel_keeps_left_null_witness :
    built (db_add head0 [] [49]).1 ∧
      (db_add head0 [] [49]).1 = .node [] [] .null (.node [] [49] .null .null) ∧
      (search [] (db_add head0 [] [49]).1).1 = some [.r] ∧
      (db_add head0 [] [49]).1.lchild = .null ∧
      built (db_remove (db_remove (db_add head0 bob [50]).1 bob).1 alice).1 :=
  ⟨.add [] [49] .init, by decide, by decide,
    (sentinel_keeps_left_null _ (.add [] [49] .init)).2.2.2.1,
    .remove alice (.remove bob (.add bob [50] .init))⟩


/-! ### The frame of an insert -/

/-- When `search` finds nothing, the parent it reports is a node of the tree and the child
slot of that parent on the side of `name` is null. -/
theorem search_none_slot (name : CStr) (t : node_t) (ht : t ≠ .null)
    (hs : (search name t).1 = none) :
    deref t (search name t).2 ≠ .null ∧
      deref t ((search name t).2 ++
        [if strcmp name (deref t (search name t).2).name < 0 then link.l else link.r]) =
        .null := by
  induction t with
  | null => exact absurd rfl ht
  | node pn pv lc rc ihl ihr =>
    by_cases h : strcmp name pn < 0
    · cases lc with
      | null =>
        rw [search_l_null pv rc h]
        simp [deref, node_t.name, h]
      | node ln lv ll lr =>
        by_cases h0 : strcmp name ln = 0
        · rw [search_l_hit pv lv ll lr rc h h0] at hs
          exact Option.noConfusion hs
        · rw [search_l_miss pv lv ll lr rc h h0] at hs ⊢
          have hs2 : (search name (.node ln lv ll lr)).1 = none := by
            cases hq : (search name (.node ln lv ll lr)).1 with
            | none => rfl
            | some x => rw [hq] at hs; exact Option.noConfusion hs
          have ih := ihl (by simp) hs2
          simpa only [deref, List.cons_append] using ih
    · cases rc with
      | null =>
        rw [search_r_null pv lc h]
        simp [deref, node_t.name, h]
      | node ln lv ll lr =>
        by_cases h0 : strcmp name ln = 0
        · rw [search_r_hit pv lv ll lr lc h h0] at hs
          exact Option.noConfusion hs
        · rw [search_r_miss pv lv ll lr lc h h0] at hs ⊢
          have hs2 : (search name (.node ln lv ll lr)).1 = none := by
            cases hq : (search name (.node ln lv ll lr)).1 with
            | none => rfl
            | some x => rw [hq] at hs; exact Option.noConfusion hs
          have ih := ihr (by simp) hs2
          simpa only [deref, List.cons_append] using ih

theorem deref_null (q : ptr) : deref .null q = .null := by
  cases q <;> rfl

theorem deref_leaf (a b : CStr) (q : ptr) :
    deref (.node a b .null .null) q ≠ .null ↔ q = [] := by
  cases q with
  | nil => simp [deref]
  | cons k q => cases k <;> simp [deref, deref_null]

/-- Storing a leaf into a null child slot of a node of the tree adds that one node and
leaves every node that was there in place, with its strings. -/
theorem assign_leaf_frame (a b : CStr) (par : ptr) (k : link) :
    ∀ (t : node_t), deref t par ≠ .null → deref t (par ++ [k]) = .null → ∀ q : ptr,
      (deref (assign t (par ++ [k]) (.node a b .null .null)) q ≠ .null ↔
        (deref t q ≠ .null ∨ q = par ++ [k])) ∧
      (deref t q ≠ .null →
        (deref (assign t (par ++ [k]) (.node a b .null .null)) q).name = (deref t q).name ∧
        (deref (assign t (par ++ [k]) (.node a b .null .null)) q).value =
          (deref t q).value) := by
  induction par with
  | nil =>
    intro t hp hn q
    cases t with
    | null => exact absurd rfl hp
    | node n v lc rc =>
      cases k
      · simp only [List.nil_append, deref] at hn
        subst hn
        cases q with
        | nil => simp [assign, deref, node_t.name, node_t.value]
        | cons e q =>
          cases e
          · simp only [List.nil_append, assign, deref, deref_leaf, deref_null]
            simp
          · simp [assign, deref]
      · simp only [List.nil_append, deref] at hn
        subst hn
        cases q with
        | nil => simp [assign, deref, node_t.name, node_t.value]
        | cons e q =>
          cases e
          · simp [assign, deref]
          · simp only [List.nil_append, assign, deref, deref_leaf, deref_null]
            simp
  | cons e par ih =>
    intro t hp hn q
    cases t with
    | null => cases e <;> simp [deref] at hp
    | node n v lc rc =>
      cases e
      · simp only [deref, List.cons_append] at hp hn
        have h := ih lc hp hn
        cases q with
        | nil => simp [assign, deref, node_t.name, node_t.value]
        | cons e2 q =>
          cases e2
          · simpa [assign, deref] using h q
          · simp [assign, deref]
      · simp only [deref, List.cons_append] at hp hn
        have h := ih rc hp hn
        cases q with
        | nil => simp [assign, deref, node_t.name, node_t.value]
        | cons e2 q =>
          cases e2
          · simp [assign, deref]
          · simpa [assign, deref] using h q

theorem deref_assign_slot (x : node_t) (par : ptr) (k : link) :
    ∀ (t : node_t), deref t par ≠ .null → deref (assign t (par ++ [k]) x) (par ++ [k]) = x := by
  induction par with
  | nil =>
    intro t hp
    cases t with
    | null => exact absurd rfl hp
    | node n v lc rc => cases k <;> simp [assign, deref, deref_nil, assign_nil]
  | cons e par ih =>
    intro t hp
    cases t with
    | null => cases e <;> simp [deref] at hp
    | node n v lc rc =>
      cases e
      · simp only [deref] at hp
        simpa [assign, deref] using ih lc hp
      · simp only [deref] at hp
        simpa [assign, deref] using ih rc hp


/-- C24: in a BST-ordered store, `db_add` of an absent name (name and value of at most 255
bytes) returns 1 and only stores a new leaf, with the given name and value and no children,
into the child slot where `search` ended: the slot of the reported parent on the left iff
the name is smaller than the parent's name, null until then.  The nodes of the new tree
are the nodes of the old tree and that leaf, and every old node keeps its name and its
value. -/
theorem db_add_attaches_leaf (head : node_t) (name value : CStr) (ho : ordered_store head)
    (ha : name ∉ keys head) (hn : strlen name < MAXLEN) (hv : strlen value < MAXLEN) :
    (search name head).1 = none ∧
      deref head (search name head).2 ≠ .null ∧
      deref head ((search name head).2 ++
        [if strcmp name (deref head (search name head).2).name < 0 then link.l else link.r]) =
        .null ∧
      db_add head name value =
        (assign head ((search name head).2 ++
          [if strcmp name (deref head (search name head).2).name < 0 then link.l else link.r])
          (.node name value .null .null), 1) ∧
      deref (db_add head name value).1 ((search name head).2 ++
        [if strcmp name (deref head (search name head).2).name < 0 then link.l else link.r]) =
        .node name value .null .null ∧
      ∀ q : ptr,
        (deref (db_add head name value).1 q ≠ .null ↔
          (deref head q ≠ .null ∨ q = (search name head).2 ++
            [if strcmp name (deref head (search name head).2).name < 0 then link.l
              else link.r])) ∧
        (deref head q ≠ .null →
          (deref (db_add head name value).1 q).name = (deref head q).name ∧
          (deref (db_add head name value).1 q).value = (deref head q).value) := by
  have hne : head ≠ .null := ho.1
  have hs : (search name head).1 = none := by
    cases hq : (search name head).1 with
    | none => rfl
    | some d =>
      exfalso
      have e := db_add_of_search_some head name value (by rw [hq]; exact fun h => Option.noConfusion h)
      obtain ⟨hv0, rc, rfl, hb⟩ := ordered_store_cases ho
      rw [names_sentinel] at ha
      rw [sentinel_add, lookup_eq_none_of_not_mem name rc ha] at e
      have e2 := congrArg Prod.snd e
      simp at e2
  obtain ⟨hp, hslot⟩ := search_none_slot name head hne hs
  have hadd : db_add head name value =
      (assign head ((search name head).2 ++
        [if strcmp name (deref head (search name head).2).name < 0 then link.l else link.r])
        (.node name value .null .null), 1) := by
    rw [db_add]
    rcases hsr : search name head with ⟨res, pp⟩
    rw [hsr] at hs
    simp only at hs
    subst hs
    simp only [node_constructor_short _ _ hn hv]
    split_ifs <;> rfl
  refine ⟨hs, hp, hslot, hadd, ?_, ?_⟩
  · rw [hadd]
    exact deref_assign_slot _ _ _ head hp
  · intro q
    rw [hadd]
    exact assign_leaf_frame name value _ _ head hp hslot q

/-- The insert of `"d"` into the store alice, bob, carol: the search ends at carol, the leaf
goes to the right of carol, and alice, bob and carol stay as they were. -/
theorem db_add_attaches_leaf_witness :
    ordered_store store_abc ∧ [100] ∉ keys store_abc ∧
      (search [100] store_abc).2 = [.r, .r, .r] ∧
      (deref store_abc [.r, .r, .r]).name = carol ∧
      db_add store_abc [100] [53] =
        (assign store_abc [.r, .r, .r, .r] (.node [100] [53] .null .null), 1) ∧
      (deref (db_add store_abc [100] [53]).1 [.r, .r, .r]).lchild = .null ∧
      (deref (db_add store_abc [100] [53]).1 [.r, .r]).name = bob :=
  ⟨by decide, by decide, by decide, by decide,
    ((db_add_attaches_leaf store_abc [100] [53] (by decide) (by decide) (by decide)
      (by decide)).2.2.2.1).trans (by decide),
    by decide,
    (((db_add_attaches_leaf store_abc [100] [53] (by decide) (by decide) (by decide)
      (by decide)).2.2.2.2.2 [.r, .r]).2 (by decide)).1.trans (by decide)⟩


/-! ### The dump -/

theorem print_spaces_eq (lvl : Nat) : print_spaces lvl = List.replicate lvl 32 := by
  induction lvl with
  | zero => rfl
  | succ n ih => rw [print_spaces, ih, List.replicate_succ]

theorem text_of_append (a b : List row) : text_of (a ++ b) = text_of a ++ text_of b := by
  induction a with
  | nil => rfl
  | cons r a ih => simp [text_of, ih]

theorem db_print_recurs_below (t : node_t) :
    ∀ (p : ptr) (lvl : Nat), p ≠ [] → db_print_recurs t p lvl = text_of (rows_below t lvl) := by
  induction t with
  | null =>
    intro p lvl _
    simp [db_print_recurs, rows_below, text_of, row.text, print_spaces_eq]
  | node n v lc rc ihl ihr =>
    intro p lvl hp
    rw [db_print_recurs, ihl (p ++ [link.l]) (lvl + 1) (by simp),
      ihr (p ++ [link.r]) (lvl + 1) (by simp)]
    simp [hp, rows_below, text_of, row.text, print_spaces_eq, text_of_append]

theorem db_print_recurs_head (head : node_t) (h : head ≠ .null) :
    db_print_recurs head [] 0 = text_of (rows head) := by
  cases head with
  | null => exact absurd rfl h
  | node n v lc rc =>
    rw [db_print_recurs, db_print_recurs_below lc _ 1 (by simp),
      db_print_recurs_below rc _ 1 (by simp)]
    simp [rows, text_of, row.text, print_spaces, text_of_append, node_t.lchild, node_t.rchild]

theorem length_rows_below (t : node_t) (d : Nat) :
    (rows_below t d).length = 2 * (entries t).length + 1 := by
  induction t generalizing d with
  | null => rfl
  | node n v lc rc ihl ihr =>
    simp only [rows_below, List.length_cons, List.length_append, ihl, ihr, entries_node]
    omega

theorem nodes_rows_below (t : node_t) (d : Nat) :
    (rows_below t d).filterMap row.node = preorder t d := by
  induction t generalizing d with
  | null => rfl
  | node n v lc rc ihl ihr =>
    simp [rows_below, preorder, row.node, List.filterMap_append, ihl, ihr]

theorem length_preorder (t : node_t) (d : Nat) : (preorder t d).length = (entries t).length := by
  induction t generalizing d with
  | null => rfl
  | node n v lc rc ihl ihr =>
    simp only [preorder, List.length_cons, List.length_append, ihl, ihr, entries_node]
    omega


theorem db_print_text (head : node_t) (filename : Option CStr) (fopen_ok : CStr → Bool)
    (hh : head ≠ .null) (hp : (db_print head filename fopen_ok).1 = 0) :
    (db_print head filename fopen_ok).2 = text_of (rows head) := by
  have e := db_print_recurs_head head hh
  cases filename with
  | none => simpa [db_print] using e
  | some f =>
    by_cases h1 : f.dropWhile isspace = []
    · simpa [db_print, h1] using e
    · by_cases h2 : fopen_ok (f.dropWhile isspace) = false
      · simp [db_print, h1, h2] at hp
      · simpa [db_print, h1, h2] using e

theorem length_rows (head : node_t) : (rows head).length = 2 * (contents head).length + 3 := by
  simp only [rows, contents, List.length_cons, List.length_append, length_rows_below]
  omega

theorem length_other_rows_below (t : node_t) (d : Nat) :
    ((rows_below t d).filter (fun r => decide (r.node = none))).length =
      (entries t).length + 1 := by
  induction t generalizing d with
  | null => rfl
  | node n v lc rc ihl ihr =>
    have h : decide ((row.real d n v).node = none) = false := by simp [row.node]
    rw [rows_below, List.filter_cons, h]
    simp only [Bool.false_eq_true, if_false, List.filter_append, List.length_append, ihl, ihr,
      entries_node, List.length_cons]
    omega

theorem count_text_rows_below (t : node_t) (d : Nat)
    (h : ∀ e ∈ entries t, 10 ∉ e.1 ∧ 10 ∉ e.2) :
    (text_of (rows_below t d)).count 10 = 2 * (entries t).length + 1 := by
  induction t generalizing d with
  | null =>
    simp [rows_below, text_of, row.text, null_text, List.count_append, List.count_replicate]
  | node n v lc rc ihl ihr =>
    have hl := ihl (d + 1) (fun e he => h e (by simp [he]))
    have hr := ihr (d + 1) (fun e he => h e (by simp [he]))
    have hn := h (n, v) (by simp)
    simp only [rows_below, text_of, text_of_append, row.text, List.count_append, hl, hr,
      entries_node, List.length_append, List.length_cons, List.count_replicate,
      List.count_eq_zero_of_not_mem hn.1, List.count_eq_zero_of_not_mem hn.2]
    simp
    omega

theorem count_text_rows (head : node_t) (h : ∀ e ∈ contents head, 10 ∉ e.1 ∧ 10 ∉ e.2) :
    (text_of (rows head)).count 10 = 2 * (contents head).length + 3 := by
  have hl := count_text_rows_below head.lchild 1 (fun e he => h e (by simp [contents, he]))
  have hr := count_text_rows_below head.rchild 1 (fun e he => h e (by simp [contents, he]))
  simp only [rows, text_of, text_of_append, row.text, List.count_append, hl, hr, contents,
    List.length_append, root_text]
  simp
  omega

/-- C22 fails as stated: for the empty store, which has no real node, `db_print` does not
write the empty text but three lines, `(root)` and two indented `(null)`; for the store
alice, bob, carol it writes nine lines, not three. -/
theorem db_print_claim_fails :
    real_text head0 = [] ∧
      (db_print head0 none (fun _ => true)).2 ≠ real_text head0 ∧
      (db_print head0 none (fun _ => true)).2 =
        [40, 114, 111, 111, 116, 41, 10, 32, 40, 110, 117, 108, 108, 41, 10,
          32, 40, 110, 117, 108, 108, 41, 10] ∧
      (db_print store_abc none (fun _ => true)).2 ≠ real_text store_abc ∧
      (rows store_abc).length = 9 ∧ (real_nodes store_abc).length = 3 := by
  decide

/-- C22 as amended: the text `db_print` writes when it returns 0 has exactly one line per
real node, these lines being the real nodes in pre-order, each made of as many spaces as
the depth of the node below the sentinel followed by the name, a space and the value; the
other lines are the first line, `(root)`, and one `(null)` line for every null child slot,
so there are as many of them as real nodes, and three more. -/
theorem db_print_real_lines (head : node_t) (filename : Option CStr) (fopen_ok : CStr → Bool)
    (hh : head ≠ .null) (hp : (db_print head filename fopen_ok).1 = 0) :
    (db_print head filename fopen_ok).2 = text_of (rows head) ∧
      (rows head).filterMap row.node = real_nodes head ∧
      (real_nodes head).length = (contents head).length ∧
      (rows head).head? = some .root ∧
      (∀ r ∈ rows head, r = .root ∨ (∃ d, r = .null d) ∨
        ∃ e ∈ real_nodes head, r = .real e.1 e.2.1 e.2.2 ∧
          r.text = List.replicate e.1 32 ++ (e.2.1 ++ [32] ++ e.2.2)) ∧
      ((rows head).filter (fun r => decide (r.node = none))).length =
        (contents head).length + 3 := by
  have hf : (rows head).filterMap row.node = real_nodes head := by
    simp [rows, real_nodes, row.node, List.filterMap_append, nodes_rows_below]
  refine ⟨db_print_text head filename fopen_ok hh hp, hf, ?_, rfl, ?_, ?_⟩
  · simp [real_nodes, contents, length_preorder]
  · intro r hr
    cases r with
    | root => exact Or.inl rfl
    | null d => exact Or.inr (Or.inl ⟨d, rfl⟩)
    | real d n v =>
      refine Or.inr (Or.inr ⟨(d, n, v), ?_, rfl, rfl⟩)
      rw [← hf]
      exact List.mem_filterMap.2 ⟨_, hr, rfl⟩
  · have h : decide (row.root.node = none) = true := by decide
    rw [rows, List.filter_cons, h]
    simp only [if_true, contents, List.filter_append, List.length_cons, List.length_append,
      length_other_rows_below]
    omega

/-- The dump of the store alice/30, bob/25, carol/40 into a file that can be opened: the
three real lines are those of alice at depth 1, bob at depth 2 and carol at depth 3. -/
theorem db_print_real_lines_witness :
    store_abc ≠ .null ∧ (db_print store_abc (some [120]) (fun _ => true)).1 = 0 ∧
      real_nodes store_abc = [(1, alice, [51, 48]), (2, bob, [50, 53]), (3, carol, [52, 48])] ∧
      (rows store_abc).filterMap row.node = real_nodes store_abc ∧
      (row.real 2 bob [50, 53]).text = [32, 32, 98, 111, 98, 32, 50, 53] :=
  ⟨by decide, by decide, by decide,
    (db_print_real_lines store_abc (some [120]) (fun _ => true) (by decide) (by decide)).2.1,
    by decide⟩

/-- C23: when `db_print` returns 0, the text it has written is the pre-order rendering of
the store: `(root)` without indentation for the sentinel, for a real node at depth `d` the
line of `d` spaces, name, space, value, and for every null child slot of a node at depth
`d` the line of `d + 1` spaces and `(null)`, the left slot before the right one.  With `n`
real nodes the rendering has `2 n + 3` lines, which are as many newlines in the text when
no stored string holds a newline, and the empty store is rendered as `(root)`, ` (null)`,
` (null)`. -/
theorem db_print_renders (head : node_t) (filename : Option CStr) (fopen_ok : CStr → Bool)
    (hh : head ≠ .null) (hp : (db_print head filename fopen_ok).1 = 0) :
    (db_print head filename fopen_ok).2 = text_of (rows head) ∧
      (rows head).length = 2 * (contents head).length + 3 ∧
      ((∀ e ∈ contents head, 10 ∉ e.1 ∧ 10 ∉ e.2) →
        (db_print head filename fopen_ok).2.count 10 = 2 * (contents head).length + 3) ∧
      rows head = .root :: (rows_below head.lchild 1 ++ rows_below head.rchild 1) ∧
      (∀ d, rows_below .null d = [.null d]) ∧
      (∀ name value lc rc d, rows_below (.node name value lc rc) d =
        .real d name value :: (rows_below lc (d + 1) ++ rows_below rc (d + 1))) ∧
      (rows head0).map row.text =
        [[40, 114, 111, 111, 116, 41], [32, 40, 110, 117, 108, 108, 41],
          [32, 40, 110, 117, 108, 108, 41]] :=
  ⟨db_print_text head filename fopen_ok hh hp, length_rows head,
    fun h => (db_print_text head filename fopen_ok hh hp).symm ▸ count_text_rows head h,
    rfl, fun _ => rfl,
    fun _ _ _ _ _ => rfl, by decide⟩

/-- The dump of the empty store to `stdout` and of the store alice/30, bob/25, carol/40:
three lines and nine lines. -/
theorem db_print_renders_witness :
    head0 ≠ .null ∧ (db_print head0 none (fun _ => false)).1 = 0 ∧
      (db_print head0 none (fun _ => false)).2 =
        [40, 114, 111, 111, 116, 41, 10, 32, 40, 110, 117, 108, 108, 41, 10,
          32, 40, 110, 117, 108, 108, 41, 10] ∧
      rows store_abc =
        [.root, .null 1, .real 1 alice [51, 48], .null 2, .real 2 bob [50, 53], .null 3,
          .real 3 carol [52, 48], .null 4, .null 4] ∧
      (rows store_abc).length = 2 * 3 + 3 ∧
      db_print store_abc (some [120]) (fun _ => false) = (-1, []) :=
  ⟨by decide, by decide,
    ((db_print_renders head0 none (fun _ => false) (by decide) (by decide)).1).trans
      (by decide),
    by decide,
    ((db_print_renders store_abc none (fun _ => false) (by decide) (by decide)).2.1).trans
      (by decide),
    by decide⟩

end DB
